import Mathlib

/-!
Verification of the dependency-graph build scheduler in `src/build/build.py`
(and the plugin resolution in `src/build/protoc.py`).

The Python data model `dict[str, set[str]]` (node -> set of direct
dependencies) is embedded as an association list `List (Node × List Node)`.
Well-formedness of a Python dict of sets (unique keys, duplicate-free value
sets) is an explicit hypothesis (`WFGraph`) on the theorems.  Python's
`sorted` on strings is embedded as insertion sort over the lexicographic
order on `String`; the `while` loops are embedded as fueled recursion with
enough fuel, proved sufficient where the claims need termination.
-/

namespace Build

abbrev Node := String

/-- An import graph: association list from node to its direct dependencies,
embedding Python's `dict[str, set[str]]`. -/
abbrev Graph := List (Node × List Node)

/-- The keys of the graph (Python `graph.keys()` / `set(graph.keys())`). -/
def keys (g : Graph) : List Node := g.map Prod.fst

/-- Python `graph.get(n, ())` / `graph.get(n, set())`: the dependency set
recorded for `n`, or empty when `n` is not a key. -/
def depsOf (g : Graph) (n : Node) : List Node :=
  match g.find? (fun p => p.1 == n) with
  | some p => p.2
  | none => []

/-- Well-formed embedding of a Python `dict[str, set[str]]`: keys are unique
and each recorded dependency set is duplicate-free. -/
def WFGraph (g : Graph) : Prop :=
  (keys g).Nodup ∧ ∀ p ∈ g, p.2.Nodup

/-- The `EXCLUDE_PREFIXES` tuple from `build.py`. -/
def EXCLUDE_PREFIXES : List String := ["google/protobuf/"]

/-- The `EXCLUDE_EXACT` tuple from `build.py`. -/
def EXCLUDE_EXACT : List String := ["tsurugidb/udf/tsurugi_types.proto"]

/-- Python `name.startswith(p)` on strings. -/
def startsWith (p name : String) : Bool := p.data.isPrefixOf name.data

/-- The `is_excluded` function from `build.py`. -/
def is_excluded (name : String) : Bool :=
  if name ∈ EXCLUDE_EXACT then true
  else EXCLUDE_PREFIXES.any (fun p => startsWith p name)

/-- Decide `a ≤ b` on strings by structural comparison of the character
lists (definitionally the same order; unlike the default instance it
reduces inside the kernel). -/
def decNodeLe (a b : Node) : Decidable (a ≤ b) :=
  decidable_of_iff (¬ b.toList < a.toList)
    (by rw [← String.lt_iff_toList_lt]; exact not_lt)

/-- Python `sorted` on a list of node names (lexicographic string order). -/
def sortNodes (l : List Node) : List Node :=
  @List.insertionSort Node (fun a b => a ≤ b) (fun a b => decNodeLe a b) l

/-- The `while stack` loop of `reachable_from_root`, fueled.  The stack is
popped at the head; Python pops at the tail and pushes dependencies one by
one, which is the same traversal with the dependency list reversed.  `seen`
is the insertion-ordered list of the Python `seen` set. -/
def reachLoop (g : Graph) : Nat → List Node → List Node → List Node
  | 0, seen, _ => seen
  | _ + 1, seen, [] => seen
  | fuel + 1, seen, cur :: stack =>
    if cur ∈ seen then reachLoop g fuel seen stack
    else reachLoop g fuel (seen ++ [cur]) ((depsOf g cur).reverse ++ stack)

/-- Fuel large enough to drain the traversal stack (proved sufficient). -/
def reachFuel (g : Graph) : Nat := 1 + (g.map (fun p => 1 + p.2.length)).sum

/-- The `reachable_from_root` function from `build.py`. -/
def reachable_from_root (g : Graph) (root : Node) : List Node :=
  reachLoop g (reachFuel g) [] [root]

/-- The `filter_graph` function from `build.py` (`exclude` is the keyword
argument). -/
def filter_graph (g : Graph) (keep_nodes : List Node) (exclude : Bool) : Graph :=
  let kept := if exclude then keep_nodes.filter (fun n => !is_excluded n) else keep_nodes
  kept.map (fun n => (n, (depsOf g n).filter (fun d => decide (d ∈ kept))))

/-- The reverse-edge table `users[d]` built by `topo_layers`
(`for n, deps in graph.items(): for d in deps: users[d].add(n)`). -/
def usersOf (g : Graph) (d : Node) : List Node :=
  (g.filter (fun p => decide (d ∈ p.2))).map Prod.fst

/-- Pointwise update of the in-degree table (`indeg[u] = v`). -/
def updF (f : Node → Int) (a : Node) (v : Int) : Node → Int :=
  fun x => if x = a then v else f x

/-- One inner step of the layer loop: `indeg[u] -= 1; if indeg[u] == 0:
q.append(u)`.  The state is the in-degree table and the list of nodes
appended to `q` so far. -/
def decStep (st : (Node → Int) × List Node) (u : Node) : (Node → Int) × List Node :=
  let v := st.1 u - 1
  (updF st.1 u v, if v = 0 then st.2 ++ [u] else st.2)

/-- The layer loop `for n in layer: for u in users.get(n, ()): ...` -/
def processLayer (g : Graph) (indeg : Node → Int) (layer : List Node) :
    (Node → Int) × List Node :=
  layer.foldl (fun st n => (usersOf g n).foldl decStep st) (indeg, [])

/-- The `while q` loop of `topo_layers`, fueled.  Returns the final
in-degree table, the layers built, and the processed count. -/
def topoLoop (g : Graph) :
    Nat → (Node → Int) → List Node → List (List Node) → Nat →
    (Node → Int) × List (List Node) × Nat
  | 0, indeg, _, layers, processed => (indeg, layers, processed)
  | _ + 1, indeg, [], layers, processed => (indeg, layers, processed)
  | fuel + 1, indeg, q, layers, processed =>
    let layer := q
    let st := processLayer g indeg layer
    topoLoop g fuel st.1 (sortNodes st.2) (layers ++ [layer]) (processed + layer.length)

/-- The `topo_layers` function from `build.py`.  `.error r` embeds
`raise RuntimeError(... remaining ...)` with `r` the sorted remaining list. -/
def topo_layers (g : Graph) : Except (List Node) (List (List Node)) :=
  let nodes := keys g
  let indeg0 : Node → Int := fun n => ((depsOf g n).length : Int)
  let q0 := sortNodes (nodes.filter (fun n => decide (indeg0 n = 0)))
  let r := topoLoop g (nodes.length + 1) indeg0 q0 [] 0
  if r.2.2 = nodes.length then .ok r.2.1
  else .error (sortNodes (nodes.filter (fun n => decide (0 < r.1 n))))

/-- The direct-import edge relation of the graph: `n` imports `d`. -/
def EdgeRel (g : Graph) (n d : Node) : Prop := d ∈ depsOf g n

/-- Transitive reachability along import edges, root included. -/
def Reach (g : Graph) (root n : Node) : Prop :=
  Relation.ReflTransGen (EdgeRel g) root n

/-- The graph has a dependency cycle. -/
def HasCycle (g : Graph) : Prop := ∃ n, Relation.TransGen (EdgeRel g) n n

/-- The graph is acyclic. -/
def Acyclic (g : Graph) : Prop := ∀ n, ¬ Relation.TransGen (EdgeRel g) n n

/-- Every dependency edge targets a key of the graph. -/
def ClosedGraph (g : Graph) : Prop :=
  ∀ p ∈ g, ∀ d ∈ p.2, d ∈ keys g

/-- A node that Kahn's algorithm can eventually place: all its dependencies
are (recursively) placeable. -/
inductive Placeable (g : Graph) : Node → Prop where
  | intro (n : Node) : n ∈ keys g → (∀ d ∈ depsOf g n, Placeable g d) →
      Placeable g n

/-- The canonical next layer once the nodes of `P` are placed: the
lexicographically sorted list of unplaced keys all of whose dependencies
are placed. -/
def Ready (g : Graph) (P : List Node) : List Node :=
  sortNodes ((keys g).filter
    (fun n => decide (n ∉ P) && (depsOf g n).all (fun d => decide (d ∈ P))))

/-- The layering invariant: relative to already-placed prefix `P`, each
successive layer consists of keys whose dependencies all lie in the part
placed before it. -/
def LayersOK (g : Graph) : List Node → List (List Node) → Prop
  | _, [] => True
  | P, L :: rest =>
    (∀ n ∈ L, n ∈ keys g ∧ ∀ d ∈ depsOf g n, d ∈ P) ∧ LayersOK g (P ++ L) rest

/-- The ambient process state consulted by `find_grpc_cpp_plugin`:
environment variables, the result of `shutil.which`, and the
filesystem predicates used on each candidate path. -/
structure SysEnv where
  envGRPC : Option String
  envPROTOC : Option String
  whichResult : Option String
  pathExists : String → Bool
  isFile : String → Bool
  access : String → Bool

/-- Python truthiness of an optional string (`None` and `""` are falsy). -/
def truthy : Option String → Bool
  | none => false
  | some s => !(s == "")

/-- The candidate contributed by one optional source (`if v: candidates.append(v)`). -/
def optCand : Option String → List String
  | none => []
  | some s => if s = "" then [] else [s]

/-- Python `os.environ.get("GRPC_CPP_PLUGIN") or os.environ.get("PROTOC_GEN_GRPC")`. -/
def envValue (env : SysEnv) : Option String :=
  if truthy env.envGRPC then env.envGRPC else env.envPROTOC

/-- The ordered candidate list built by `find_grpc_cpp_plugin`. -/
def candidatesOf (cli : Option String) (env : SysEnv) : List String :=
  optCand cli ++ optCand (envValue env) ++ optCand env.whichResult
    ++ ["/usr/bin/grpc_cpp_plugin", "/usr/local/bin/grpc_cpp_plugin"]

/-- Python `p.exists() and p.is_file() and os.access(str(p), os.X_OK)`. -/
def isExecFile (env : SysEnv) (c : String) : Bool :=
  env.pathExists c && env.isFile c && env.access c

/-- The candidate scan with its duplicate-skipping `seen` set. -/
def findLoop (env : SysEnv) : List String → List String → Option String
  | [], _ => none
  | c :: rest, seen =>
    if c ∈ seen then findLoop env rest seen
    else if isExecFile env c then some c
    else findLoop env rest (seen ++ [c])

/-- The `find_grpc_cpp_plugin` function from `build.py`/`protoc.py`: `.ok` is the returned
path, `.error` carries the list of locations printed by the fatal
`SystemExit` message (`"Tried:" + candidates`). -/
def find_grpc_cpp_plugin (cli : Option String) (env : SysEnv) :
    Except (List String) String :=
  let candidates := candidatesOf cli env
  match findLoop env candidates [] with
  | some p => .ok p
  | none => .error candidates

/-- What holds of the `while q` loop's result state. -/
structure TopoPost (g : Graph) (layers₀ : List (List Node)) (q₀ : List Node)
    (R : (Node → Int) × List (List Node) × Nat) : Prop where
  procEq : R.2.2 = R.2.1.flatten.length
  indegEq : ∀ u, R.1 u
    = (((depsOf g u).filter (fun d => decide (d ∉ R.2.1.flatten))).length : Int)
  nodupF : R.2.1.flatten.Nodup
  subF : ∀ n ∈ R.2.1.flatten, n ∈ keys g
  lokF : LayersOK g [] R.2.1
  sortedF : ∀ L ∈ R.2.1, L.Sorted (fun a b : Node => a ≤ b)
  readyF : Ready g R.2.1.flatten = []
  extF : ∃ suffix, R.2.1 = layers₀ ++ suffix
    ∧ (q₀ ≠ [] → suffix.headD [] = q₀) ∧ (q₀ = [] → suffix = [])


/-- The total weight of graph entries whose key is not yet seen; the
termination measure of the traversal is `stack.length + unseenWeight`. -/
def unseenWeight (g : Graph) (seen : List Node) : Nat :=
  ((g.filter (fun p => decide (p.1 ∉ seen))).map (fun p => 1 + p.2.length)).sum


end Build

namespace Build

theorem mem_keys {g : Graph} {n : Node} : n ∈ keys g ↔ ∃ p ∈ g, p.1 = n := by
  simp [keys, List.mem_map]

theorem depsOf_cons {a : Node × List Node} {t : Graph} {n : Node} :
    depsOf (a :: t) n = if a.1 = n then a.2 else depsOf t n := by
  by_cases h : a.1 = n
  · simp [depsOf, List.find?_cons_of_pos, h]
  · simp only [depsOf, if_neg h]
    rw [List.find?_cons_of_neg]
    simp [h]

theorem depsOf_eq_nil_of_not_mem {g : Graph} {n : Node} (h : n ∉ keys g) :
    depsOf g n = [] := by
  have hf : g.find? (fun p => p.1 == n) = none := by
    rw [List.find?_eq_none]
    intro p hp hb
    exact h (mem_keys.mpr ⟨p, hp, by simpa using hb⟩)
  simp [depsOf, hf]

theorem mem_keys_of_depsOf_ne_nil {g : Graph} {n : Node} (h : depsOf g n ≠ []) :
    n ∈ keys g := by
  by_contra hn
  exact h (depsOf_eq_nil_of_not_mem hn)

theorem entry_mem_of_mem_keys {g : Graph} {n : Node} (h : n ∈ keys g) :
    (n, depsOf g n) ∈ g := by
  induction g with
  | nil => cases h
  | cons a t ih =>
    rw [depsOf_cons]
    by_cases ha : a.1 = n
    · subst ha
      simp
    · have hn : n ∈ keys t := by
        rcases mem_keys.mp h with ⟨p, hp, hpn⟩
        rcases List.mem_cons.mp hp with he | hp'
        · subst he
          exact absurd hpn ha
        · exact mem_keys.mpr ⟨p, hp', hpn⟩
      simp only [if_neg ha]
      exact List.mem_cons_of_mem _ (ih hn)

theorem depsOf_entry {g : Graph} (hk : (keys g).Nodup) {p : Node × List Node}
    (hp : p ∈ g) : depsOf g p.1 = p.2 := by
  induction g with
  | nil => cases hp
  | cons a t ih =>
    have hk' : a.1 ∉ keys t ∧ (keys t).Nodup := by
      simpa [keys] using hk
    rcases List.mem_cons.mp hp with he | hp'
    · subst he
      simp [depsOf_cons]
    · have hne : a.1 ≠ p.1 := by
        intro he
        exact hk'.1 (mem_keys.mpr ⟨p, hp', he.symm⟩)
      rw [depsOf_cons, if_neg hne]
      exact ih hk'.2 hp'

theorem depsOf_nodup {g : Graph} (hwf : WFGraph g) (n : Node) :
    (depsOf g n).Nodup := by
  by_cases h : n ∈ keys g
  · exact hwf.2 _ (entry_mem_of_mem_keys h)
  · simp [depsOf_eq_nil_of_not_mem h]

theorem sortNodes_perm (l : List Node) : (sortNodes l).Perm l :=
  @List.perm_insertionSort Node (fun a b => a ≤ b) (fun a b => decNodeLe a b) l

theorem sortNodes_sorted (l : List Node) :
    (sortNodes l).Sorted (fun a b : Node => a ≤ b) :=
  @List.sorted_insertionSort Node (fun a b => a ≤ b) (fun a b => decNodeLe a b)
    inferInstance inferInstance l

theorem mem_sortNodes {a : Node} {l : List Node} : a ∈ sortNodes l ↔ a ∈ l :=
  (sortNodes_perm l).mem_iff

theorem sortNodes_nodup {l : List Node} (h : l.Nodup) : (sortNodes l).Nodup :=
  ((sortNodes_perm l).nodup_iff).mpr h

theorem sortNodes_eq_of_perm {l₁ l₂ : List Node} (h : l₁.Perm l₂) :
    sortNodes l₁ = sortNodes l₂ :=
  List.eq_of_perm_of_sorted
    ((sortNodes_perm l₁).trans (h.trans (sortNodes_perm l₂).symm))
    (sortNodes_sorted l₁) (sortNodes_sorted l₂)

end Build

namespace Build


theorem decStep_fst (f : Node → Int) (acc : List Node) (u x : Node) :
    (decStep (f, acc) u).1 x = if x = u then f u - 1 else f x := rfl

theorem decStep_snd (f : Node → Int) (acc : List Node) (u : Node) :
    (decStep (f, acc) u).2 = if f u - 1 = 0 then acc ++ [u] else acc := rfl

theorem decFold_fst (L : List Node) :
    ∀ (f : Node → Int) (acc : List Node) (u : Node),
      ((L.foldl decStep (f, acc)).1) u = f u - (L.count u : Int) := by
  induction L with
  | nil => intro f acc u; simp
  | cons a L ih =>
    intro f acc u
    rw [List.foldl_cons]
    have hrec := ih (decStep (f, acc) a).1 (decStep (f, acc) a).2 u
    rw [hrec, decStep_fst]
    by_cases h : u = a
    · subst h
      rw [if_pos rfl, List.count_cons_self]
      push_cast
      ring
    · rw [if_neg h, List.count_cons_of_ne h]

theorem decFold_count (L : List Node) :
    ∀ (f : Node → Int) (acc : List Node) (u : Node),
      ((L.foldl decStep (f, acc)).2).count u =
        acc.count u +
          (if 1 ≤ f u ∧ f u ≤ (L.count u : Int) then 1 else 0) := by
  induction L with
  | nil =>
    intro f acc u
    simp only [List.foldl_nil, List.count_nil]
    split_ifs with h
    · exfalso; omega
    · omega
  | cons a L ih =>
    intro f acc u
    rw [List.foldl_cons]
    have hrec := ih (decStep (f, acc) a).1 (decStep (f, acc) a).2 u
    rw [hrec, decStep_fst, decStep_snd]
    by_cases h : u = a
    · subst h
      rw [if_pos rfl, List.count_cons_self]
      by_cases hz : f u - 1 = 0
      · rw [if_pos hz, List.count_append]
        have h1 : List.count u [u] = 1 := by simp
        rw [h1]
        split_ifs <;> omega
      · rw [if_neg hz]
        split_ifs <;> omega
    · rw [if_neg h, List.count_cons_of_ne h]
      by_cases hz : f a - 1 = 0
      · rw [if_pos hz, List.count_append]
        have h0 : List.count u [a] = 0 := List.count_eq_zero.mpr (by simpa using h)
        rw [h0]
        simp
      · rw [if_neg hz]

theorem foldl_inner_eq_flatMap {α β σ : Type} (f : σ → β → σ) (gm : α → List β) :
    ∀ (l : List α) (init : σ),
      l.foldl (fun st a => (gm a).foldl f st) init = (l.flatMap gm).foldl f init := by
  intro l
  induction l with
  | nil => intro init; simp
  | cons a l ih =>
    intro init
    rw [List.foldl_cons, List.flatMap_cons, List.foldl_append, ih]

theorem processLayer_eq (g : Graph) (indeg : Node → Int) (layer : List Node) :
    processLayer g indeg layer = (layer.flatMap (usersOf g)).foldl decStep (indeg, []) := by
  unfold processLayer
  exact foldl_inner_eq_flatMap decStep (usersOf g) layer (indeg, [])

theorem usersOf_cons {a : Node × List Node} {t : Graph} {n : Node} :
    usersOf (a :: t) n = if n ∈ a.2 then a.1 :: usersOf t n else usersOf t n := by
  unfold usersOf
  by_cases hd : n ∈ a.2
  · rw [List.filter_cons_of_pos (by simpa using hd), List.map_cons, if_pos hd]
  · rw [List.filter_cons_of_neg (by simpa using hd), if_neg hd]

theorem count_usersOf {g : Graph} (hk : (keys g).Nodup) (n u : Node) :
    (usersOf g n).count u = if n ∈ depsOf g u then 1 else 0 := by
  induction g with
  | nil => simp [usersOf, depsOf]
  | cons a t ih =>
    have hk' : a.1 ∉ keys t ∧ (keys t).Nodup := by
      simpa [keys] using hk
    have ihv := ih hk'.2
    rw [usersOf_cons, depsOf_cons]
    by_cases ha : a.1 = u
    · have hdt : depsOf t u = [] := by
        rw [← ha]
        exact depsOf_eq_nil_of_not_mem hk'.1
      by_cases hd : n ∈ a.2
      · rw [if_pos hd, if_pos ha, ha, List.count_cons_self, ihv, hdt]
        simp [hd]
      · rw [if_neg hd, if_pos ha, ihv, hdt]
        simp [hd]
    · by_cases hd : n ∈ a.2
      · rw [if_pos hd, if_neg ha, List.count_cons_of_ne (fun he => ha he.symm), ihv]
      · rw [if_neg hd, if_neg ha, ihv]

theorem count_layer_users {g : Graph} (hk : (keys g).Nodup) (layer : List Node) (u : Node) :
    ((layer.flatMap (usersOf g)).count u) =
      (layer.filter (fun n => decide (n ∈ depsOf g u))).length := by
  induction layer with
  | nil => simp
  | cons a layer ih =>
    rw [List.flatMap_cons, List.count_append, count_usersOf hk, List.filter_cons]
    by_cases hd : a ∈ depsOf g u
    · have hb : decide (a ∈ depsOf g u) = true := by simpa using hd
      rw [if_pos hd, hb, if_pos rfl, List.length_cons, ih]
      omega
    · have hb : decide (a ∈ depsOf g u) = false := by simpa using hd
      rw [if_neg hd, hb, if_neg (by simp), ih]
      omega

end Build

namespace Build

theorem mem_Ready {g : Graph} {P : List Node} {n : Node} :
    n ∈ Ready g P ↔ n ∈ keys g ∧ n ∉ P ∧ ∀ d ∈ depsOf g n, d ∈ P := by
  unfold Ready
  rw [mem_sortNodes, List.mem_filter]
  simp [List.all_eq_true, and_assoc]

theorem Ready_nodup {g : Graph} (hk : (keys g).Nodup) (P : List Node) :
    (Ready g P).Nodup :=
  sortNodes_nodup (hk.filter _)

theorem Ready_sorted (g : Graph) (P : List Node) :
    (Ready g P).Sorted (fun a b : Node => a ≤ b) :=
  sortNodes_sorted _

theorem LayersOK_append {g : Graph} :
    ∀ (l₁ l₂ : List (List Node)) (P : List Node),
      LayersOK g P (l₁ ++ l₂) ↔ LayersOK g P l₁ ∧ LayersOK g (P ++ l₁.flatten) l₂ := by
  intro l₁
  induction l₁ with
  | nil => intro l₂ P; simp [LayersOK]
  | cons L l₁ ih =>
    intro l₂ P
    rw [List.cons_append]
    simp only [LayersOK, ih, List.flatten_cons, and_assoc, List.append_assoc]

theorem LayersOK_placeable {g : Graph} :
    ∀ (layers : List (List Node)) (P : List Node),
      LayersOK g P layers → (∀ m ∈ P, Placeable g m) →
      ∀ n ∈ layers.flatten, Placeable g n := by
  intro layers
  induction layers with
  | nil => intro P _ _ n hn; simp at hn
  | cons L rest ih =>
    intro P hlok hP n hn
    rw [List.flatten_cons, List.mem_append] at hn
    have hL : ∀ m ∈ L, Placeable g m := by
      intro m hm
      exact Placeable.intro m (hlok.1 m hm).1 (fun d hd => hP d ((hlok.1 m hm).2 d hd))
    rcases hn with hn | hn
    · exact hL n hn
    · refine ih (P ++ L) hlok.2 ?_ n hn
      intro m hm
      rcases List.mem_append.mp hm with hm | hm
      · exact hP m hm
      · exact hL m hm

theorem LayersOK_deps_sub {g : Graph} :
    ∀ (layers : List (List Node)) (P : List Node),
      LayersOK g P layers →
      ∀ n ∈ layers.flatten, ∀ d ∈ depsOf g n, d ∈ P ++ layers.flatten := by
  intro layers
  induction layers with
  | nil => intro P _ n hn; simp at hn
  | cons L rest ih =>
    intro P hlok n hn d hd
    rw [List.flatten_cons, List.mem_append] at hn
    rcases hn with hn | hn
    · have := (hlok.1 n hn).2 d hd
      simp only [List.flatten_cons, List.mem_append]
      tauto
    · have := ih (P ++ L) hlok.2 n hn d hd
      simp only [List.mem_append] at this ⊢
      simp only [List.flatten_cons, List.mem_append]
      tauto

theorem LayersOK_take {g : Graph} :
    ∀ (layers : List (List Node)) (P : List Node) (i : Nat) (n : Node),
      LayersOK g P layers → ∀ (hi : i < layers.length), n ∈ layers.get ⟨i, hi⟩ →
      n ∈ keys g ∧ ∀ d ∈ depsOf g n, d ∈ P ++ (layers.take i).flatten := by
  intro layers
  induction layers with
  | nil => intro P i n _ hi; simp at hi
  | cons L rest ih =>
    intro P i n hlok hi hn
    match i with
    | 0 =>
      simp only [List.get] at hn
      refine ⟨(hlok.1 n hn).1, ?_⟩
      intro d hd
      have := (hlok.1 n hn).2 d hd
      simp only [List.take_zero, List.flatten_nil, List.append_nil]
      exact this
    | i + 1 =>
      have hi' : i < rest.length := by simpa using hi
      have := ih (P ++ L) i n hlok.2 hi' (by simpa using hn)
      refine ⟨this.1, ?_⟩
      intro d hd
      have h2 := this.2 d hd
      simp only [List.take_succ_cons, List.flatten_cons, ← List.append_assoc]
      exact h2

theorem length_filter_split (p q : Node → Bool) :
    ∀ (l : List Node), (∀ a ∈ l, q a = true → p a = true) →
      (l.filter p).length
        = (l.filter (fun a => p a && !q a)).length + (l.filter q).length := by
  intro l
  induction l with
  | nil => intro _; simp
  | cons a l ih =>
    intro h
    have ihl := ih (fun b hb => h b (List.mem_cons_of_mem a hb))
    have ha := h a (List.mem_cons_self a l)
    cases hpv : p a with
    | true =>
      cases hqv : q a with
      | true =>
        simp [List.filter_cons, hpv, hqv, ihl]
        omega
      | false =>
        simp [List.filter_cons, hpv, hqv, ihl]
        omega
    | false =>
      cases hqv : q a with
      | true => exact absurd (ha hqv) (by simp [hpv])
      | false =>
        simp [List.filter_cons, hpv, hqv, ihl]

theorem length_filter_mem_comm {l₁ l₂ : List Node} (h₁ : l₁.Nodup) (h₂ : l₂.Nodup) :
    (l₁.filter (fun a => decide (a ∈ l₂))).length
      = (l₂.filter (fun a => decide (a ∈ l₁))).length := by
  have e₁ : (l₁.filter (fun a => decide (a ∈ l₂))).toFinset = l₁.toFinset ∩ l₂.toFinset := by
    ext x
    simp [List.mem_filter]
  have e₂ : (l₂.filter (fun a => decide (a ∈ l₁))).toFinset = l₂.toFinset ∩ l₁.toFinset := by
    ext x
    simp [List.mem_filter]
  have n₁ : (l₁.filter (fun a => decide (a ∈ l₂))).Nodup := h₁.filter _
  have n₂ : (l₂.filter (fun a => decide (a ∈ l₁))).Nodup := h₂.filter _
  rw [← List.toFinset_card_of_nodup n₁, ← List.toFinset_card_of_nodup n₂, e₁, e₂,
    Finset.inter_comm]

theorem nodup_subset_length_le {P K : List Node} (hP : P.Nodup) (hsub : ∀ x ∈ P, x ∈ K) :
    P.length ≤ K.length :=
  (hP.subperm (fun {x} hx => hsub x hx)).length_le

end Build

namespace Build

theorem step_indeg {g : Graph} (hwf : WFGraph g) {P layer : List Node}
    (hlayer : layer = Ready g P)
    (indeg : Node → Int)
    (hind : ∀ u, indeg u = (((depsOf g u).filter (fun d => decide (d ∉ P))).length : Int)) :
    ∀ u, (processLayer g indeg layer).1 u
      = (((depsOf g u).filter (fun d => decide (d ∉ P ++ layer))).length : Int) := by
  intro u
  rw [processLayer_eq, decFold_fst, count_layer_users hwf.1, hind]
  have hDnd := depsOf_nodup hwf u
  have hlnd : layer.Nodup := hlayer ▸ Ready_nodup hwf.1 P
  rw [length_filter_mem_comm hlnd hDnd]
  have hsplit := length_filter_split (fun d => decide (d ∉ P)) (fun d => decide (d ∈ layer))
    (depsOf g u)
    (by
      intro a _ ha
      simp only [decide_eq_true_eq] at ha ⊢
      exact (mem_Ready.mp (hlayer ▸ ha)).2.1)
  have hconv : (depsOf g u).filter (fun a => decide (a ∉ P) && !decide (a ∈ layer))
      = (depsOf g u).filter (fun a => decide (a ∉ P ++ layer)) := by
    apply List.filter_congr
    intro x _
    by_cases h1 : x ∈ P <;> by_cases h2 : x ∈ layer <;> simp [h1, h2]
  rw [hconv] at hsplit
  omega

theorem step_cond_iff {g : Graph} (hwf : WFGraph g) {P layer : List Node}
    (hlayer : layer = Ready g P)
    (hPd : ∀ n ∈ P, ∀ d ∈ depsOf g n, d ∈ P)
    (indeg : Node → Int)
    (hind : ∀ u, indeg u = (((depsOf g u).filter (fun d => decide (d ∉ P))).length : Int))
    (u : Node) :
    (1 ≤ indeg u ∧ indeg u ≤ (((layer.flatMap (usersOf g)).count u : Nat) : Int))
      ↔ (u ∈ keys g ∧ u ∉ P ++ layer ∧ ∀ d ∈ depsOf g u, d ∈ P ++ layer) := by
  have hDnd := depsOf_nodup hwf u
  have hlnd : layer.Nodup := hlayer ▸ Ready_nodup hwf.1 P
  rw [count_layer_users hwf.1, length_filter_mem_comm hlnd hDnd, hind]
  have hBA : ((depsOf g u).filter (fun d => decide (d ∈ layer))).Sublist
      ((depsOf g u).filter (fun d => decide (d ∉ P))) := by
    apply List.monotone_filter_right
    intro a ha
    simp only [decide_eq_true_eq] at ha ⊢
    exact (mem_Ready.mp (hlayer ▸ ha)).2.1
  constructor
  · rintro ⟨h1, h2⟩
    have hBAle := hBA.length_le
    have hlen : ((depsOf g u).filter (fun d => decide (d ∉ P))).length
        = ((depsOf g u).filter (fun d => decide (d ∈ layer))).length := by omega
    have hAB : (depsOf g u).filter (fun d => decide (d ∈ layer))
        = (depsOf g u).filter (fun d => decide (d ∉ P)) := hBA.eq_of_length hlen.symm
    have hAne : ((depsOf g u).filter (fun d => decide (d ∉ P))) ≠ [] := by
      intro he
      rw [he] at hlen
      simp at hlen
      omega
    have hukeys : u ∈ keys g := by
      apply mem_keys_of_depsOf_ne_nil
      intro hD
      exact hAne (by simp [hD])
    refine ⟨hukeys, ?_, ?_⟩
    · intro hmem
      rcases List.mem_append.mp hmem with hP | hL
      · apply hAne
        rw [List.filter_eq_nil_iff]
        intro d hd
        simp only [decide_eq_true_eq, not_not]
        exact hPd u hP d hd
      · apply hAne
        rw [List.filter_eq_nil_iff]
        intro d hd
        simp only [decide_eq_true_eq, not_not]
        exact (mem_Ready.mp (hlayer ▸ hL)).2.2 d hd
    · intro d hd
      by_cases hdP : d ∈ P
      · exact List.mem_append.mpr (Or.inl hdP)
      · have : d ∈ (depsOf g u).filter (fun d => decide (d ∉ P)) :=
          List.mem_filter.mpr ⟨hd, by simpa using hdP⟩
        rw [← hAB] at this
        have := (List.mem_filter.mp this).2
        simp only [decide_eq_true_eq] at this
        exact List.mem_append.mpr (Or.inr this)
  · rintro ⟨hu, hnp, hdeps⟩
    have hAne : ((depsOf g u).filter (fun d => decide (d ∉ P))) ≠ [] := by
      intro he
      apply hnp
      have hsubP : ∀ d ∈ depsOf g u, d ∈ P := by
        intro d hd
        by_contra hdp
        have : d ∈ (depsOf g u).filter (fun d => decide (d ∉ P)) :=
          List.mem_filter.mpr ⟨hd, by simpa using hdp⟩
        rw [he] at this
        cases this
      have : u ∈ Ready g P := mem_Ready.mpr ⟨hu, fun hP => hnp (List.mem_append.mpr (Or.inl hP)), hsubP⟩
      exact List.mem_append.mpr (Or.inr (hlayer ▸ this))
    have hsubAB : ∀ d ∈ (depsOf g u).filter (fun d => decide (d ∉ P)),
        d ∈ (depsOf g u).filter (fun d => decide (d ∈ layer)) := by
      intro d hdA
      have hd := (List.mem_filter.mp hdA).1
      have hdnp := (List.mem_filter.mp hdA).2
      simp only [decide_eq_true_eq] at hdnp
      rcases List.mem_append.mp (hdeps d hd) with hP | hL
      · exact absurd hP hdnp
      · exact List.mem_filter.mpr ⟨hd, by simpa using hL⟩
    have hle : ((depsOf g u).filter (fun d => decide (d ∉ P))).length
        ≤ ((depsOf g u).filter (fun d => decide (d ∈ layer))).length :=
      nodup_subset_length_le (hDnd.filter _) hsubAB
    have hpos : 0 < ((depsOf g u).filter (fun d => decide (d ∉ P))).length :=
      List.length_pos.mpr hAne
    omega

end Build

namespace Build

theorem step_queue {g : Graph} (hwf : WFGraph g) {P layer : List Node}
    (hlayer : layer = Ready g P)
    (hPd : ∀ n ∈ P, ∀ d ∈ depsOf g n, d ∈ P)
    (indeg : Node → Int)
    (hind : ∀ u, indeg u = (((depsOf g u).filter (fun d => decide (d ∉ P))).length : Int)) :
    sortNodes (processLayer g indeg layer).2 = Ready g (P ++ layer) := by
  have hperm : (processLayer g indeg layer).2.Perm
      ((keys g).filter (fun n => decide (n ∉ P ++ layer)
        && (depsOf g n).all (fun d => decide (d ∈ P ++ layer)))) := by
    rw [List.perm_iff_count]
    intro u
    rw [processLayer_eq, decFold_count]
    simp only [List.count_nil, Nat.zero_add]
    have hiff := step_cond_iff hwf hlayer hPd indeg hind u
    by_cases hc : 1 ≤ indeg u ∧ indeg u ≤ (((layer.flatMap (usersOf g)).count u : Nat) : Int)
    · rw [if_pos hc]
      have hc2 := hiff.mp hc
      have hmem : u ∈ (keys g).filter (fun n => decide (n ∉ P ++ layer)
          && (depsOf g n).all (fun d => decide (d ∈ P ++ layer))) := by
        rw [List.mem_filter]
        refine ⟨hc2.1, ?_⟩
        simp only [Bool.and_eq_true, decide_eq_true_eq, List.all_eq_true]
        exact ⟨hc2.2.1, fun d hd => by simpa using hc2.2.2 d hd⟩
      exact (List.count_eq_one_of_mem ((hwf.1).filter _) hmem).symm
    · rw [if_neg hc]
      have hnm : u ∉ (keys g).filter (fun n => decide (n ∉ P ++ layer)
          && (depsOf g n).all (fun d => decide (d ∈ P ++ layer))) := by
        intro hmem
        apply hc
        apply hiff.mpr
        rw [List.mem_filter] at hmem
        have := hmem.2
        simp only [Bool.and_eq_true, decide_eq_true_eq, List.all_eq_true] at this
        exact ⟨hmem.1, this.1, fun d hd => by simpa using this.2 d hd⟩
      exact (List.count_eq_zero_of_not_mem hnm).symm
  exact sortNodes_eq_of_perm hperm

end Build

namespace Build

theorem topoLoop_post {g : Graph} (hwf : WFGraph g) :
    ∀ (fuel : Nat) (indeg : Node → Int) (q : List Node)
      (layers : List (List Node)) (processed : Nat),
      (∀ u, indeg u
        = (((depsOf g u).filter (fun d => decide (d ∉ layers.flatten))).length : Int)) →
      q = Ready g layers.flatten →
      processed = layers.flatten.length →
      layers.flatten.Nodup →
      (∀ n ∈ layers.flatten, n ∈ keys g) →
      LayersOK g [] layers →
      (∀ L ∈ layers, L.Sorted (fun a b : Node => a ≤ b)) →
      (keys g).length + 1 ≤ fuel + processed →
      TopoPost g layers q (topoLoop g fuel indeg q layers processed) := by
  intro fuel
  induction fuel with
  | zero =>
    intro indeg q layers processed hind hq hproc hnd hsub hlok hsort hfuel
    exfalso
    have := nodup_subset_length_le hnd hsub
    omega
  | succ fuel ih =>
    intro indeg q layers processed hind hq hproc hnd hsub hlok hsort hfuel
    cases q with
    | nil =>
      have hred : topoLoop g (fuel + 1) indeg [] layers processed
          = (indeg, layers, processed) := rfl
      rw [hred]
      exact ⟨hproc, hind, hnd, hsub, hlok, hsort,
        hq.symm, ⟨[], by simp, fun h => absurd rfl h, fun _ => rfl⟩⟩
    | cons c rest =>
      have hlayer : (c :: rest) = Ready g layers.flatten := hq
      have hPd : ∀ n ∈ layers.flatten, ∀ d ∈ depsOf g n, d ∈ layers.flatten := by
        intro n hn d hd
        simpa using LayersOK_deps_sub layers [] hlok n hn d hd
      have hflat' : (layers ++ [c :: rest]).flatten = layers.flatten ++ (c :: rest) := by
        simp
      have hind' : ∀ u, (processLayer g indeg (c :: rest)).1 u
          = (((depsOf g u).filter
              (fun d => decide (d ∉ (layers ++ [c :: rest]).flatten))).length : Int) := by
        intro u
        rw [hflat']
        exact step_indeg hwf hlayer indeg hind u
      have hq' : sortNodes (processLayer g indeg (c :: rest)).2
          = Ready g (layers ++ [c :: rest]).flatten := by
        rw [hflat']
        exact step_queue hwf hlayer hPd indeg hind
      have hlnd : (c :: rest).Nodup := hlayer ▸ Ready_nodup hwf.1 _
      have hnd' : (layers ++ [c :: rest]).flatten.Nodup := by
        rw [hflat']
        refine List.Nodup.append hnd hlnd ?_
        intro a ha hb
        exact (mem_Ready.mp (hlayer ▸ hb)).2.1 ha
      have hsub' : ∀ n ∈ (layers ++ [c :: rest]).flatten, n ∈ keys g := by
        rw [hflat']
        intro n hn
        rcases List.mem_append.mp hn with h | h
        · exact hsub n h
        · exact (mem_Ready.mp (hlayer ▸ h)).1
      have hlok' : LayersOK g [] (layers ++ [c :: rest]) := by
        rw [LayersOK_append]
        refine ⟨hlok, ?_⟩
        simp only [List.nil_append]
        refine ⟨?_, trivial⟩
        intro n hn
        have hm := mem_Ready.mp (hlayer ▸ hn)
        exact ⟨hm.1, hm.2.2⟩
      have hsort' : ∀ L ∈ layers ++ [c :: rest], L.Sorted (fun a b : Node => a ≤ b) := by
        intro L hL
        rcases List.mem_append.mp hL with h | h
        · exact hsort L h
        · have : L = c :: rest := by simpa using h
          rw [this, hlayer]
          exact Ready_sorted g _
      have hproc' : processed + (c :: rest).length = (layers ++ [c :: rest]).flatten.length := by
        rw [hflat']
        simp [hproc]
      have hfuel' : (keys g).length + 1 ≤ fuel + (processed + (c :: rest).length) := by
        simp only [List.length_cons]
        omega
      have post := ih (processLayer g indeg (c :: rest)).1
        (sortNodes (processLayer g indeg (c :: rest)).2)
        (layers ++ [c :: rest]) (processed + (c :: rest).length)
        hind' hq'.symm.symm hproc' hnd' hsub' hlok' hsort' hfuel'
      have hunfold : topoLoop g (fuel + 1) indeg (c :: rest) layers processed
          = topoLoop g fuel (processLayer g indeg (c :: rest)).1
              (sortNodes (processLayer g indeg (c :: rest)).2)
              (layers ++ [c :: rest]) (processed + (c :: rest).length) := rfl
      rw [hunfold]
      refine { post with extF := ?_ }
      rcases post.extF with ⟨suffix, hs, _, _⟩
      refine ⟨(c :: rest) :: suffix, ?_, fun _ => rfl, fun h => absurd h (by simp)⟩
      rw [hs]
      simp

end Build

namespace Build

theorem placeable_mem_of_ready_nil {g : Graph} {PF : List Node}
    (hready : Ready g PF = []) :
    ∀ n, Placeable g n → n ∈ PF := by
  intro n hp
  induction hp with
  | intro n hk hdeps ih =>
    by_contra hn
    have hmem : n ∈ Ready g PF := mem_Ready.mpr ⟨hk, hn, ih⟩
    rw [hready] at hmem
    cases hmem

theorem q0_eq_Ready (g : Graph) :
    sortNodes ((keys g).filter (fun n => decide (((depsOf g n).length : Int) = 0)))
      = Ready g [] := by
  unfold Ready
  congr 1
  apply List.filter_congr
  intro n _
  rw [Bool.eq_iff_iff]
  simp [List.all_eq_true, List.length_eq_zero, List.eq_nil_iff_forall_not_mem]

theorem topo_master (g : Graph) (hwf : WFGraph g) :
    ∃ layersF : List (List Node),
      layersF.flatten.Nodup ∧
      (∀ n, n ∈ layersF.flatten ↔ n ∈ keys g ∧ Placeable g n) ∧
      LayersOK g [] layersF ∧
      (∀ L ∈ layersF, L.Sorted (fun a b : Node => a ≤ b)) ∧
      layersF.headD [] = Ready g [] ∧
      ((∀ n ∈ keys g, Placeable g n) → topo_layers g = .ok layersF) ∧
      ((∃ n ∈ keys g, ¬ Placeable g n) →
        topo_layers g = .error (sortNodes ((keys g).filter
          (fun n => decide (n ∉ layersF.flatten))))) := by
  set R := topoLoop g ((keys g).length + 1) (fun n => ((depsOf g n).length : Int))
    (sortNodes ((keys g).filter (fun n => decide (((depsOf g n).length : Int) = 0)))) [] 0
    with hR
  have hpost : TopoPost g []
      (sortNodes ((keys g).filter (fun n => decide (((depsOf g n).length : Int) = 0)))) R := by
    rw [hR]
    refine topoLoop_post hwf ((keys g).length + 1) _ _ [] 0 ?_ ?_ ?_ ?_ ?_ ?_ ?_ ?_
    · intro u
      simp
    · rw [List.flatten_nil]
      exact q0_eq_Ready g
    · rfl
    · simp
    · simp
    · trivial
    · simp
    · simp
  have htopo : topo_layers g = (if R.2.2 = (keys g).length then Except.ok R.2.1
      else Except.error (sortNodes ((keys g).filter (fun n => decide (0 < R.1 n))))) := by
    rw [hR]
    rfl
  have hmem : ∀ n, n ∈ R.2.1.flatten ↔ n ∈ keys g ∧ Placeable g n := by
    intro n
    constructor
    · intro hn
      exact ⟨hpost.subF n hn,
        LayersOK_placeable R.2.1 [] hpost.lokF (by simp) n hn⟩
    · rintro ⟨_, hp⟩
      exact placeable_mem_of_ready_nil hpost.readyF n hp
  refine ⟨R.2.1, hpost.nodupF, hmem, hpost.lokF, hpost.sortedF, ?_, ?_, ?_⟩
  · rcases hpost.extF with ⟨suffix, hs, h1, h2⟩
    simp only [List.nil_append] at hs
    by_cases hq : sortNodes ((keys g).filter
        (fun n => decide (((depsOf g n).length : Int) = 0))) = []
    · rw [hs, h2 hq]
      rw [← q0_eq_Ready g, hq]
      rfl
    · rw [hs, h1 hq, ← q0_eq_Ready g]
  · intro hall
    have hmemAll : ∀ n, n ∈ R.2.1.flatten ↔ n ∈ keys g := by
      intro n
      rw [hmem n]
      exact ⟨fun h => h.1, fun h => ⟨h, hall n h⟩⟩
    have hperm : R.2.1.flatten.Perm (keys g) :=
      (List.perm_ext_iff_of_nodup hpost.nodupF hwf.1).mpr hmemAll
    rw [htopo, if_pos (by rw [hpost.procEq]; exact hperm.length_eq)]
  · rintro ⟨n₀, hn₀k, hn₀p⟩
    have hn₀ : n₀ ∉ R.2.1.flatten := fun h => hn₀p ((hmem n₀).mp h).2
    have hne : ¬ (R.2.2 = (keys g).length) := by
      rw [hpost.procEq]
      intro he
      have hsub : R.2.1.flatten.Subperm (keys g) :=
        hpost.nodupF.subperm (fun {x} hx => hpost.subF x hx)
      have hperm := hsub.perm_of_length_le (le_of_eq he.symm)
      exact hn₀ (hperm.mem_iff.mpr hn₀k)
    rw [htopo, if_neg hne]
    congr 1
    apply congrArg sortNodes
    apply List.filter_congr
    intro n hnk
    rw [Bool.eq_iff_iff]
    simp only [decide_eq_true_eq]
    rw [hpost.indegEq n]
    rw [Int.natCast_pos]
    constructor
    · intro hpos hmemn
      have hdeps : ∀ d ∈ depsOf g n, d ∈ R.2.1.flatten := by
        intro d hd
        simpa using LayersOK_deps_sub R.2.1 [] hpost.lokF n hmemn d hd
      have : ((depsOf g n).filter (fun d => decide (d ∉ R.2.1.flatten))) = [] := by
        rw [List.filter_eq_nil_iff]
        intro d hd
        simp only [decide_eq_true_eq, not_not]
        exact hdeps d hd
      rw [this] at hpos
      simp at hpos
    · intro hnm
      rw [List.length_pos]
      intro hnil
      have hdeps : ∀ d ∈ depsOf g n, d ∈ R.2.1.flatten := by
        intro d hd
        by_contra hdn
        have : d ∈ (depsOf g n).filter (fun d => decide (d ∉ R.2.1.flatten)) :=
          List.mem_filter.mpr ⟨hd, by simpa using hdn⟩
        rw [hnil] at this
        cases this
      have : n ∈ Ready g R.2.1.flatten := mem_Ready.mpr ⟨hnk, hnm, hdeps⟩
      rw [hpost.readyF] at this
      cases this

end Build

namespace Build

theorem Placeable.key_mem {g : Graph} {n : Node} (h : Placeable g n) : n ∈ keys g := by
  cases h with
  | intro _ hk _ => exact hk

theorem Placeable.deps {g : Graph} {n : Node} (h : Placeable g n) :
    ∀ d ∈ depsOf g n, Placeable g d := by
  cases h with
  | intro _ _ hd => exact hd

theorem placeable_no_self_cycle {g : Graph} {n : Node} (h : Placeable g n) :
    ¬ Relation.TransGen (EdgeRel g) n n := by
  induction h with
  | intro n hk hdeps ih =>
    intro hcyc
    rcases Relation.TransGen.head'_iff.mp hcyc with ⟨b, hnb, hbn⟩
    have hb : b ∈ depsOf g n := hnb
    exact ih b hb (Relation.TransGen.tail' hbn hnb)

theorem cycle_unplaceable {g : Graph} (hcyc : HasCycle g) :
    ∃ n ∈ keys g, ¬ Placeable g n := by
  rcases hcyc with ⟨n, htg⟩
  rcases Relation.TransGen.head'_iff.mp htg with ⟨b, hnb, _⟩
  have hk : n ∈ keys g := by
    apply mem_keys_of_depsOf_ne_nil
    intro he
    rw [show EdgeRel g n b = (b ∈ depsOf g n) from rfl, he] at hnb
    cases hnb
  exact ⟨n, hk, fun hp => placeable_no_self_cycle hp htg⟩

theorem self_edge_unplaceable {g : Graph} {n : Node} (h : n ∈ depsOf g n) :
    ¬ Placeable g n :=
  fun hp => placeable_no_self_cycle hp (Relation.TransGen.single h)

theorem dangling_unplaceable {g : Graph} {n d : Node} (hd : d ∈ depsOf g n)
    (hdk : d ∉ keys g) : ¬ Placeable g n :=
  fun hp => hdk (hp.deps d hd).key_mem

theorem unplaceable_has_unplaceable_dep {g : Graph} (hclosed : ClosedGraph g)
    {n : Node} (hk : n ∈ keys g) (hp : ¬ Placeable g n) :
    ∃ d ∈ depsOf g n, d ∈ keys g ∧ ¬ Placeable g d := by
  by_contra hc
  push_neg at hc
  apply hp
  refine Placeable.intro n hk ?_
  intro d hd
  have hdk : d ∈ keys g := by
    have := entry_mem_of_mem_keys hk
    exact hclosed (n, depsOf g n) this d hd
  exact hc d hd hdk

theorem acyclic_closed_placeable {g : Graph} (hclosed : ClosedGraph g)
    (hacyc : Acyclic g) : ∀ n ∈ keys g, Placeable g n := by
  intro n₀ hn₀
  by_contra hp₀
  have hstep : ∀ x : { m : Node // m ∈ keys g ∧ ¬ Placeable g m },
      ∃ y : { m : Node // m ∈ keys g ∧ ¬ Placeable g m }, EdgeRel g x.1 y.1 := by
    rintro ⟨m, hmk, hmp⟩
    rcases unplaceable_has_unplaceable_dep hclosed hmk hmp with ⟨d, hd, hdk, hdp⟩
    exact ⟨⟨d, hdk, hdp⟩, hd⟩
  let step : { m : Node // m ∈ keys g ∧ ¬ Placeable g m } →
      { m : Node // m ∈ keys g ∧ ¬ Placeable g m } :=
    fun x => Classical.choose (hstep x)
  have hstep' : ∀ x, EdgeRel g x.1 (step x).1 := fun x => Classical.choose_spec (hstep x)
  let seq : Nat → { m : Node // m ∈ keys g ∧ ¬ Placeable g m } :=
    fun k => step^[k] ⟨n₀, hn₀, hp₀⟩
  have hedge : ∀ k, EdgeRel g (seq k).1 (seq (k + 1)).1 := by
    intro k
    have : seq (k + 1) = step (seq k) := Function.iterate_succ_apply' step k _
    rw [this]
    exact hstep' (seq k)
  have hchain : ∀ a b : Nat, a < b →
      Relation.TransGen (EdgeRel g) (seq a).1 (seq b).1 := by
    intro a b hab
    induction b, hab using Nat.le_induction with
    | base => exact Relation.TransGen.single (hedge a)
    | succ b _ ih => exact Relation.TransGen.tail ih (hedge b)
  have hmaps : ∀ k ∈ Finset.range ((keys g).toFinset.card + 1),
      (seq k).1 ∈ (keys g).toFinset := by
    intro k _
    exact List.mem_toFinset.mpr (seq k).2.1
  have hcard : ((keys g).toFinset).card < (Finset.range ((keys g).toFinset.card + 1)).card := by
    rw [Finset.card_range]
    omega
  rcases Finset.exists_ne_map_eq_of_card_lt_of_maps_to hcard hmaps with
    ⟨x, _, y, _, hxy, heq⟩
  rcases Nat.lt_or_ge x y with hlt | hge
  · exact hacyc (seq x).1 (heq ▸ hchain x y hlt)
  · have hlt : y < x := by omega
    exact hacyc (seq y).1 (heq.symm ▸ hchain y x hlt)

end Build

namespace Build

theorem flatten_unique_layer {layers : List (List Node)} (hnd : layers.flatten.Nodup)
    {j k : Nat} (hj : j < layers.length) (hk : k < layers.length) {d : Node}
    (hdj : d ∈ layers.get ⟨j, hj⟩) (hdk : d ∈ layers.get ⟨k, hk⟩) : j = k := by
  by_contra hne
  have hpair := (List.nodup_flatten.mp hnd).2
  rw [List.pairwise_iff_get] at hpair
  rcases Nat.lt_or_ge j k with h | h
  · exact hpair ⟨j, hj⟩ ⟨k, hk⟩ (by simpa using h) hdj hdk
  · have h' : k < j := by omega
    exact hpair ⟨k, hk⟩ ⟨j, hj⟩ (by simpa using h') hdk hdj

theorem mem_take_flatten {layers : List (List Node)} {i : Nat} {d : Node}
    (hd : d ∈ (layers.take i).flatten) :
    ∃ k, ∃ hk : k < layers.length, k < i ∧ d ∈ layers.get ⟨k, hk⟩ := by
  rcases List.mem_flatten.mp hd with ⟨L, hL, hdL⟩
  rcases List.mem_iff_getElem.mp hL with ⟨k, hklen, hkL⟩
  have hkb : k < min i layers.length := by
    rw [List.length_take] at hklen
    exact hklen
  have hki : k < i := by omega
  have hkl : k < layers.length := by omega
  refine ⟨k, hkl, hki, ?_⟩
  have he : (layers.take i)[k] = layers[k] := List.getElem_take layers
  rw [he] at hkL
  rw [List.get_eq_getElem, hkL]
  exact hdL

theorem dep_layer_lt {g : Graph} {layers : List (List Node)}
    (hnd : layers.flatten.Nodup) (hlok : LayersOK g [] layers)
    {i j : Nat} (hi : i < layers.length) (hj : j < layers.length) {n d : Node}
    (hn : n ∈ layers.get ⟨i, hi⟩) (hd : d ∈ layers.get ⟨j, hj⟩)
    (hdep : d ∈ depsOf g n) : j < i := by
  have htake := (LayersOK_take layers [] i n hlok hi hn).2 d hdep
  simp only [List.nil_append] at htake
  rcases mem_take_flatten htake with ⟨k, hk, hki, hdk⟩
  have : k = j := flatten_unique_layer hnd hk hj hdk hd
  omega

end Build


namespace Build

theorem keys_perm_of_equiv {g₁ g₂ : Graph} (h₁ : WFGraph g₁) (h₂ : WFGraph g₂)
    (hks : ∀ n, n ∈ keys g₁ ↔ n ∈ keys g₂) : (keys g₁).Perm (keys g₂) :=
  (List.perm_ext_iff_of_nodup h₁.1 h₂.1).mpr hks

theorem deps_perm_of_equiv {g₁ g₂ : Graph} (h₁ : WFGraph g₁) (h₂ : WFGraph g₂)
    (hds : ∀ n d, d ∈ depsOf g₁ n ↔ d ∈ depsOf g₂ n) (n : Node) :
    (depsOf g₁ n).Perm (depsOf g₂ n) :=
  (List.perm_ext_iff_of_nodup (depsOf_nodup h₁ n) (depsOf_nodup h₂ n)).mpr (hds n)

theorem Ready_congr_of_equiv {g₁ g₂ : Graph} (h₁ : WFGraph g₁) (h₂ : WFGraph g₂)
    (hks : ∀ n, n ∈ keys g₁ ↔ n ∈ keys g₂)
    (hds : ∀ n d, d ∈ depsOf g₁ n ↔ d ∈ depsOf g₂ n) (P : List Node) :
    Ready g₁ P = Ready g₂ P := by
  unfold Ready
  apply sortNodes_eq_of_perm
  have hstep : ((keys g₂).filter (fun n => decide (n ∉ P)
      && (depsOf g₁ n).all (fun d => decide (d ∈ P))))
      = ((keys g₂).filter (fun n => decide (n ∉ P)
        && (depsOf g₂ n).all (fun d => decide (d ∈ P)))) := by
    apply List.filter_congr
    intro n _
    congr 1
    rw [Bool.eq_iff_iff]
    simp only [List.all_eq_true]
    constructor
    · intro h d hd
      exact h d ((hds n d).mpr hd)
    · intro h d hd
      exact h d ((hds n d).mp hd)
  have hp1 : ((keys g₁).filter (fun n => decide (n ∉ P)
      && (depsOf g₁ n).all (fun d => decide (d ∈ P)))).Perm
      ((keys g₂).filter (fun n => decide (n ∉ P)
        && (depsOf g₁ n).all (fun d => decide (d ∈ P)))) :=
    (keys_perm_of_equiv h₁ h₂ hks).filter _
  rw [hstep] at hp1
  exact hp1

theorem countL_congr_of_equiv {g₁ g₂ : Graph} (h₁ : WFGraph g₁) (h₂ : WFGraph g₂)
    (hds : ∀ n d, d ∈ depsOf g₁ n ↔ d ∈ depsOf g₂ n)
    (layer : List Node) (u : Node) :
    (layer.flatMap (usersOf g₁)).count u = (layer.flatMap (usersOf g₂)).count u := by
  rw [count_layer_users h₁.1, count_layer_users h₂.1]
  congr 1
  apply List.filter_congr
  intro n _
  rw [Bool.eq_iff_iff]
  simp only [decide_eq_true_eq]
  exact hds u n

theorem topoLoop_congr_of_equiv {g₁ g₂ : Graph} (h₁ : WFGraph g₁) (h₂ : WFGraph g₂)
    (hds : ∀ n d, d ∈ depsOf g₁ n ↔ d ∈ depsOf g₂ n) :
    ∀ (fuel : Nat) (indeg₁ indeg₂ : Node → Int) (q : List Node)
      (layers : List (List Node)) (processed : Nat),
      (∀ u, indeg₁ u = indeg₂ u) →
      (topoLoop g₁ fuel indeg₁ q layers processed).2
          = (topoLoop g₂ fuel indeg₂ q layers processed).2
        ∧ ∀ u, (topoLoop g₁ fuel indeg₁ q layers processed).1 u
          = (topoLoop g₂ fuel indeg₂ q layers processed).1 u := by
  intro fuel
  induction fuel with
  | zero => intro indeg₁ indeg₂ q layers processed hind; exact ⟨rfl, hind⟩
  | succ fuel ih =>
    intro indeg₁ indeg₂ q layers processed hind
    cases q with
    | nil => exact ⟨rfl, hind⟩
    | cons c rest =>
      have hind' : ∀ u, (processLayer g₁ indeg₁ (c :: rest)).1 u
          = (processLayer g₂ indeg₂ (c :: rest)).1 u := by
        intro u
        rw [processLayer_eq, processLayer_eq, decFold_fst, decFold_fst, hind u,
          countL_congr_of_equiv h₁ h₂ hds (c :: rest) u]
      have hq' : sortNodes (processLayer g₁ indeg₁ (c :: rest)).2
          = sortNodes (processLayer g₂ indeg₂ (c :: rest)).2 := by
        apply sortNodes_eq_of_perm
        rw [List.perm_iff_count]
        intro u
        rw [processLayer_eq, processLayer_eq, decFold_count, decFold_count, hind u,
          countL_congr_of_equiv h₁ h₂ hds (c :: rest) u]
      have e₁ : topoLoop g₁ (fuel + 1) indeg₁ (c :: rest) layers processed
          = topoLoop g₁ fuel (processLayer g₁ indeg₁ (c :: rest)).1
              (sortNodes (processLayer g₁ indeg₁ (c :: rest)).2)
              (layers ++ [c :: rest]) (processed + (c :: rest).length) := rfl
      have e₂ : topoLoop g₂ (fuel + 1) indeg₂ (c :: rest) layers processed
          = topoLoop g₂ fuel (processLayer g₂ indeg₂ (c :: rest)).1
              (sortNodes (processLayer g₂ indeg₂ (c :: rest)).2)
              (layers ++ [c :: rest]) (processed + (c :: rest).length) := rfl
      rw [e₁, e₂, hq']
      exact ih _ _ _ _ _ hind'

end Build

namespace Build

theorem topo_layers_congr_of_equiv {g₁ g₂ : Graph} (h₁ : WFGraph g₁) (h₂ : WFGraph g₂)
    (hks : ∀ n, n ∈ keys g₁ ↔ n ∈ keys g₂)
    (hds : ∀ n d, d ∈ depsOf g₁ n ↔ d ∈ depsOf g₂ n) :
    topo_layers g₁ = topo_layers g₂ := by
  have hklen : (keys g₁).length = (keys g₂).length :=
    (keys_perm_of_equiv h₁ h₂ hks).length_eq
  have hind0 : ∀ u, ((depsOf g₁ u).length : Int) = ((depsOf g₂ u).length : Int) := by
    intro u
    rw [(deps_perm_of_equiv h₁ h₂ hds u).length_eq]
  have hq0 : sortNodes ((keys g₂).filter (fun n => decide (((depsOf g₂ n).length : Int) = 0)))
      = sortNodes ((keys g₁).filter (fun n => decide (((depsOf g₁ n).length : Int) = 0))) := by
    rw [q0_eq_Ready g₁, q0_eq_Ready g₂]
    exact (Ready_congr_of_equiv h₁ h₂ hks hds []).symm
  have htopo₁ : topo_layers g₁ = (if (topoLoop g₁ ((keys g₁).length + 1)
      (fun n => ((depsOf g₁ n).length : Int))
      (sortNodes ((keys g₁).filter (fun n => decide (((depsOf g₁ n).length : Int) = 0))))
      [] 0).2.2 = (keys g₁).length
    then Except.ok (topoLoop g₁ ((keys g₁).length + 1)
      (fun n => ((depsOf g₁ n).length : Int))
      (sortNodes ((keys g₁).filter (fun n => decide (((depsOf g₁ n).length : Int) = 0))))
      [] 0).2.1
    else Except.error (sortNodes ((keys g₁).filter (fun n => decide (0 < (topoLoop g₁
      ((keys g₁).length + 1) (fun n => ((depsOf g₁ n).length : Int))
      (sortNodes ((keys g₁).filter (fun n => decide (((depsOf g₁ n).length : Int) = 0))))
      [] 0).1 n))))) := rfl
  have htopo₂ : topo_layers g₂ = (if (topoLoop g₂ ((keys g₂).length + 1)
      (fun n => ((depsOf g₂ n).length : Int))
      (sortNodes ((keys g₂).filter (fun n => decide (((depsOf g₂ n).length : Int) = 0))))
      [] 0).2.2 = (keys g₂).length
    then Except.ok (topoLoop g₂ ((keys g₂).length + 1)
      (fun n => ((depsOf g₂ n).length : Int))
      (sortNodes ((keys g₂).filter (fun n => decide (((depsOf g₂ n).length : Int) = 0))))
      [] 0).2.1
    else Except.error (sortNodes ((keys g₂).filter (fun n => decide (0 < (topoLoop g₂
      ((keys g₂).length + 1) (fun n => ((depsOf g₂ n).length : Int))
      (sortNodes ((keys g₂).filter (fun n => decide (((depsOf g₂ n).length : Int) = 0))))
      [] 0).1 n))))) := rfl
  rw [htopo₁, htopo₂, hq0, ← hklen]
  have hloop := topoLoop_congr_of_equiv h₁ h₂ hds ((keys g₁).length + 1)
    (fun n => ((depsOf g₁ n).length : Int)) (fun n => ((depsOf g₂ n).length : Int))
    (sortNodes ((keys g₁).filter (fun n => decide (((depsOf g₁ n).length : Int) = 0))))
    [] 0 hind0
  rw [← hloop.1]
  by_cases hcond : (topoLoop g₁ ((keys g₁).length + 1)
      (fun n => ((depsOf g₁ n).length : Int))
      (sortNodes ((keys g₁).filter (fun n => decide (((depsOf g₁ n).length : Int) = 0))))
      [] 0).2.2 = (keys g₁).length
  · rw [if_pos hcond, if_pos hcond]
  · rw [if_neg hcond, if_neg hcond]
    congr 1
    apply sortNodes_eq_of_perm
    have hfc : ((keys g₂).filter (fun n => decide (0 < (topoLoop g₂ ((keys g₁).length + 1)
        (fun n => ((depsOf g₂ n).length : Int))
        (sortNodes ((keys g₁).filter (fun n => decide (((depsOf g₁ n).length : Int) = 0))))
        [] 0).1 n)))
        = ((keys g₂).filter (fun n => decide (0 < (topoLoop g₁ ((keys g₁).length + 1)
        (fun n => ((depsOf g₁ n).length : Int))
        (sortNodes ((keys g₁).filter (fun n => decide (((depsOf g₁ n).length : Int) = 0))))
        [] 0).1 n))) := by
      apply List.filter_congr
      intro n _
      rw [hloop.2 n]
    rw [hfc]
    exact (keys_perm_of_equiv h₁ h₂ hks).filter _

end Build

namespace Build

theorem unseenWeight_mono (g : Graph) (seen : List Node) (cur : Node) :
    unseenWeight g (seen ++ [cur]) ≤ unseenWeight g seen := by
  unfold unseenWeight
  apply List.Sublist.sum_le_sum
  · apply List.Sublist.map
    apply List.monotone_filter_right
    intro p hp
    simp only [decide_eq_true_eq] at hp ⊢
    intro hmem
    exact hp (List.mem_append.mpr (Or.inl hmem))
  · intro a _
    exact Nat.zero_le a

theorem unseenWeight_split (g : Graph) (seen : List Node) (cur : Node)
    (hcur : cur ∉ seen) :
    unseenWeight g seen = unseenWeight g (seen ++ [cur])
      + ((g.filter (fun p => p.1 == cur)).map (fun p => 1 + p.2.length)).sum := by
  induction g with
  | nil => simp [unseenWeight]
  | cons p t ih =>
    unfold unseenWeight at ih ⊢
    by_cases hpc : p.1 = cur
    · have h1 : decide (p.1 ∉ seen) = true := by
        rw [hpc]
        simpa using hcur
      have h2 : decide (p.1 ∉ seen ++ [cur]) = false := by
        simp [hpc]
      have h3 : (p.1 == cur) = true := by simpa using hpc
      rw [List.filter_cons, List.filter_cons, List.filter_cons, h1, h2, h3]
      simp only [if_true, if_false, Bool.false_eq_true, List.map_cons, List.sum_cons]
      omega
    · have h3 : (p.1 == cur) = false := by simpa using hpc
      have hsame : decide (p.1 ∉ seen ++ [cur]) = decide (p.1 ∉ seen) := by
        rw [Bool.eq_iff_iff]
        simp only [decide_eq_true_eq]
        constructor
        · intro h hmem
          exact h (List.mem_append.mpr (Or.inl hmem))
        · intro h hmem
          rcases List.mem_append.mp hmem with hm | hm
          · exact h hm
          · have : p.1 = cur := by simpa using hm
            exact hpc this
      rw [List.filter_cons, List.filter_cons, List.filter_cons, h3, hsame]
      by_cases hs : decide (p.1 ∉ seen) = true
      · rw [hs]
        simp only [if_true, if_false, Bool.false_eq_true, List.map_cons, List.sum_cons]
        omega
      · have hs' : decide (p.1 ∉ seen) = false := by
          cases hv : decide (p.1 ∉ seen)
          · rfl
          · exact absurd hv hs
        rw [hs']
        simp only [if_true, if_false, Bool.false_eq_true]
        exact ih

theorem entry_weight_le (g : Graph) (cur : Node) (hk : cur ∈ keys g) :
    1 + (depsOf g cur).length
      ≤ ((g.filter (fun p => p.1 == cur)).map (fun p => 1 + p.2.length)).sum := by
  have hmem : (cur, depsOf g cur) ∈ g.filter (fun p => p.1 == cur) := by
    rw [List.mem_filter]
    exact ⟨entry_mem_of_mem_keys hk, by simp⟩
  have hmap : 1 + (depsOf g cur).length
      ∈ (g.filter (fun p => p.1 == cur)).map (fun p => 1 + p.2.length) :=
    List.mem_map.mpr ⟨(cur, depsOf g cur), hmem, rfl⟩
  exact List.single_le_sum (fun a _ => Nat.zero_le a) _ hmap

theorem reachLoop_post (g : Graph) :
    ∀ (fuel : Nat) (seen stack : List Node),
      stack.length + unseenWeight g seen ≤ fuel →
      (∀ n ∈ seen, ∀ d ∈ depsOf g n, d ∈ seen ∨ d ∈ stack) →
      (∀ x ∈ seen, x ∈ reachLoop g fuel seen stack)
      ∧ (∀ x ∈ stack, x ∈ reachLoop g fuel seen stack)
      ∧ (∀ n ∈ reachLoop g fuel seen stack, ∀ d ∈ depsOf g n,
          d ∈ reachLoop g fuel seen stack) := by
  intro fuel
  induction fuel with
  | zero =>
    intro seen stack hfuel hinv
    have hstack : stack = [] := List.length_eq_zero.mp (by omega)
    subst hstack
    refine ⟨fun x hx => hx, fun x hx => (List.not_mem_nil x hx).elim, ?_⟩
    intro n hn d hd
    rcases hinv n hn d hd with h | h
    · exact h
    · cases h
  | succ fuel ih =>
    intro seen stack hfuel hinv
    cases stack with
    | nil =>
      refine ⟨fun x hx => hx, fun x hx => (List.not_mem_nil x hx).elim, ?_⟩
      intro n hn d hd
      rcases hinv n hn d hd with h | h
      · exact h
      · cases h
    | cons cur stack =>
      by_cases hcur : cur ∈ seen
      · have hred : reachLoop g (fuel + 1) seen (cur :: stack)
            = reachLoop g fuel seen stack := by
          rw [reachLoop, if_pos hcur]
        rw [hred]
        have hfuel' : stack.length + unseenWeight g seen ≤ fuel := by
          simp only [List.length_cons] at hfuel
          omega
        have hinv' : ∀ n ∈ seen, ∀ d ∈ depsOf g n, d ∈ seen ∨ d ∈ stack := by
          intro n hn d hd
          rcases hinv n hn d hd with h | h
          · exact Or.inl h
          · rcases List.mem_cons.mp h with he | hm
            · exact Or.inl (he ▸ hcur)
            · exact Or.inr hm
        obtain ⟨hseen, hstack, hclosed⟩ := ih seen stack hfuel' hinv'
        refine ⟨hseen, ?_, hclosed⟩
        intro x hx
        rcases List.mem_cons.mp hx with he | hm
        · exact he ▸ hseen cur hcur
        · exact hstack x hm
      · have hred : reachLoop g (fuel + 1) seen (cur :: stack)
            = reachLoop g fuel (seen ++ [cur]) ((depsOf g cur).reverse ++ stack) := by
          rw [reachLoop, if_neg hcur]
        rw [hred]
        have hfuel' : ((depsOf g cur).reverse ++ stack).length
            + unseenWeight g (seen ++ [cur]) ≤ fuel := by
          simp only [List.length_append, List.length_reverse, List.length_cons] at hfuel ⊢
          by_cases hk : cur ∈ keys g
          · have hsplit := unseenWeight_split g seen cur hcur
            have hle := entry_weight_le g cur hk
            omega
          · have hdeps : depsOf g cur = [] := depsOf_eq_nil_of_not_mem hk
            have hmono := unseenWeight_mono g seen cur
            rw [hdeps]
            simp only [List.length_nil]
            omega
        have hinv' : ∀ n ∈ seen ++ [cur], ∀ d ∈ depsOf g n,
            d ∈ seen ++ [cur] ∨ d ∈ (depsOf g cur).reverse ++ stack := by
          intro n hn d hd
          rcases List.mem_append.mp hn with hm | hm
          · rcases hinv n hm d hd with h | h
            · exact Or.inl (List.mem_append.mpr (Or.inl h))
            · rcases List.mem_cons.mp h with he | hst
              · exact Or.inl (List.mem_append.mpr (Or.inr (by simp [he])))
              · exact Or.inr (List.mem_append.mpr (Or.inr hst))
          · have hn' : n = cur := by simpa using hm
            subst hn'
            exact Or.inr (List.mem_append.mpr (Or.inl (List.mem_reverse.mpr hd)))
        obtain ⟨hseen, hstack, hclosed⟩ := ih (seen ++ [cur])
          ((depsOf g cur).reverse ++ stack) hfuel' hinv'
        refine ⟨?_, ?_, hclosed⟩
        · intro x hx
          exact hseen x (List.mem_append.mpr (Or.inl hx))
        · intro x hx
          rcases List.mem_cons.mp hx with he | hm
          · exact hseen x (List.mem_append.mpr (Or.inr (by simp [he])))
          · exact hstack x (List.mem_append.mpr (Or.inr hm))

theorem reachLoop_sound (g : Graph) (root : Node) :
    ∀ (fuel : Nat) (seen stack : List Node),
      (∀ x ∈ seen, Reach g root x) → (∀ x ∈ stack, Reach g root x) →
      ∀ n ∈ reachLoop g fuel seen stack, Reach g root n := by
  intro fuel
  induction fuel with
  | zero => intro seen stack hseen _ n hn; exact hseen n hn
  | succ fuel ih =>
    intro seen stack hseen hstack n hn
    cases stack with
    | nil => exact hseen n hn
    | cons cur rest =>
      by_cases hcur : cur ∈ seen
      · rw [reachLoop, if_pos hcur] at hn
        exact ih seen rest hseen (fun x hx => hstack x (List.mem_cons_of_mem _ hx)) n hn
      · rw [reachLoop, if_neg hcur] at hn
        have hcr : Reach g root cur := hstack cur (List.mem_cons_self _ _)
        refine ih (seen ++ [cur]) ((depsOf g cur).reverse ++ rest) ?_ ?_ n hn
        · intro x hx
          rcases List.mem_append.mp hx with h | h
          · exact hseen x h
          · have : x = cur := by simpa using h
            exact this ▸ hcr
        · intro x hx
          rcases List.mem_append.mp hx with h | h
          · have hxd : x ∈ depsOf g cur := List.mem_reverse.mp h
            exact Relation.ReflTransGen.tail hcr hxd
          · exact hstack x (List.mem_cons_of_mem _ h)

theorem reachable_post (g : Graph) (root : Node) :
    root ∈ reachable_from_root g root
    ∧ (∀ n ∈ reachable_from_root g root, ∀ d ∈ depsOf g n,
        d ∈ reachable_from_root g root)
    ∧ (∀ n ∈ reachable_from_root g root, Reach g root n) := by
  have hW : unseenWeight g [] = (g.map (fun p => 1 + p.2.length)).sum := by
    unfold unseenWeight
    congr 1
    congr 1
    have : ∀ p ∈ g, (decide ((p : Node × List Node).1 ∉ ([] : List Node))) = true := by
      intro p _
      simp
    rw [List.filter_congr this]
    exact List.filter_true g
  have hfuel : ([root] : List Node).length + unseenWeight g [] ≤ reachFuel g := by
    rw [hW]
    unfold reachFuel
    simp
  have hpost := reachLoop_post g (reachFuel g) [] [root] hfuel
    (fun n hn => (List.not_mem_nil n hn).elim)
  have hsound := reachLoop_sound g root (reachFuel g) [] [root]
    (fun x hx => (List.not_mem_nil x hx).elim)
    (fun x hx => by
      have : x = root := by simpa using hx
      exact this ▸ Relation.ReflTransGen.refl)
  exact ⟨hpost.2.1 root (List.mem_cons_self _ _), hpost.2.2, hsound⟩

end Build

namespace Build

theorem topo_ok_all_placeable {g : Graph} (hwf : WFGraph g)
    {layers : List (List Node)} (hok : topo_layers g = .ok layers) :
    ∀ n ∈ keys g, Placeable g n := by
  by_contra hc
  push_neg at hc
  rcases topo_master g hwf with ⟨lf, _, _, _, _, _, _, herr⟩
  rw [herr (by rcases hc with ⟨n, hn, hp⟩; exact ⟨n, hn, hp⟩)] at hok
  cases hok

theorem topo_ok_eq_master {g : Graph} (hwf : WFGraph g)
    {layers layersF : List (List Node)}
    (hok : topo_layers g = .ok layers)
    (hokF : (∀ n ∈ keys g, Placeable g n) → topo_layers g = .ok layersF) :
    layers = layersF := by
  have h := hokF (topo_ok_all_placeable hwf hok)
  rw [hok] at h
  exact Except.ok.inj h

theorem Ready_nil (g : Graph) :
    Ready g [] = sortNodes ((keys g).filter (fun n => decide (depsOf g n = []))) := by
  unfold Ready
  congr 1
  apply List.filter_congr
  intro n _
  rw [Bool.eq_iff_iff]
  simp [List.all_eq_true, List.eq_nil_iff_forall_not_mem]

theorem findLoop_eq_find? (env : SysEnv) :
    ∀ (cs seen : List String), (∀ s ∈ seen, isExecFile env s = false) →
      findLoop env cs seen = cs.find? (isExecFile env) := by
  intro cs
  induction cs with
  | nil => intro seen _; rfl
  | cons c rest ih =>
    intro seen h
    show (if c ∈ seen then findLoop env rest seen
      else if isExecFile env c then some c
      else findLoop env rest (seen ++ [c])) = (c :: rest).find? (isExecFile env)
    by_cases hc : c ∈ seen
    · rw [if_pos hc]
      have hcf : isExecFile env c = false := h c hc
      rw [List.find?_cons_of_neg _ (by simp [hcf]), ih seen h]
    · rw [if_neg hc]
      by_cases he : isExecFile env c = true
      · rw [if_pos he, List.find?_cons_of_pos _ he]
      · have hef : isExecFile env c = false := by
          cases hv : isExecFile env c
          · rfl
          · exact absurd hv he
        rw [if_neg he, List.find?_cons_of_neg _ (by simp [hef])]
        apply ih
        intro s hs
        rcases List.mem_append.mp hs with hm | hm
        · exact h s hm
        · have : s = c := by simpa using hm
          exact this ▸ hef

theorem keptOf_eq (keep : List Node) (exclude : Bool) :
    (if exclude then keep.filter (fun n => !is_excluded n) else keep)
      = if exclude then keep.filter (fun n => !is_excluded n) else keep := rfl

theorem filter_graph_mem_iff (g : Graph) (keep : List Node) (exclude : Bool)
    (p : Node × List Node) :
    p ∈ filter_graph g keep exclude ↔
      ∃ n ∈ (if exclude then keep.filter (fun n => !is_excluded n) else keep),
        p = (n, (depsOf g n).filter (fun d =>
          decide (d ∈ (if exclude then keep.filter (fun n => !is_excluded n) else keep)))) := by
  unfold filter_graph
  simp only [List.mem_map]
  constructor
  · rintro ⟨n, hn, he⟩
    exact ⟨n, hn, he.symm⟩
  · rintro ⟨n, hn, he⟩
    exact ⟨n, hn, he.symm⟩

theorem keys_filter_graph (g : Graph) (keep : List Node) (exclude : Bool) :
    keys (filter_graph g keep exclude)
      = (if exclude then keep.filter (fun n => !is_excluded n) else keep) := by
  unfold filter_graph keys
  rw [List.map_map]
  exact List.map_id _

end Build

namespace Build

theorem acyclic_of_rank_entries {g : Graph} (rank : Node → Nat)
    (h : ∀ p ∈ g, ∀ d ∈ p.2, rank d < rank p.1) : Acyclic g := by
  have hedge : ∀ n d, EdgeRel g n d → rank d < rank n := by
    intro n d hd
    have hne : depsOf g n ≠ [] := by
      intro he
      rw [show EdgeRel g n d = (d ∈ depsOf g n) from rfl, he] at hd
      cases hd
    have hk : n ∈ keys g := mem_keys_of_depsOf_ne_nil hne
    exact h (n, depsOf g n) (entry_mem_of_mem_keys hk) d hd
  intro n htg
  have hdesc : ∀ a b : Node, Relation.TransGen (EdgeRel g) a b → rank b < rank a := by
    intro a b h'
    induction h' with
    | single he => exact hedge _ _ he
    | tail _ he ih => exact lt_trans (hedge _ _ he) ih
  exact lt_irrefl _ (hdesc n n htg)

theorem filter_graph_true_mem_iff (g : Graph) (keep : List Node)
    (p : Node × List Node) :
    p ∈ filter_graph g keep true ↔
      ∃ n ∈ keep.filter (fun n => !is_excluded n),
        p = (n, (depsOf g n).filter (fun d =>
          decide (d ∈ keep.filter (fun n => !is_excluded n)))) :=
  filter_graph_mem_iff g keep true p

theorem keys_filter_graph_true (g : Graph) (keep : List Node) :
    keys (filter_graph g keep true) = keep.filter (fun n => !is_excluded n) :=
  keys_filter_graph g keep true

/-- C1: for every finite acyclic graph whose every edge target is also a key
of the graph, `topo_layers` succeeds, every node of the graph appears in
exactly one layer (and nodes outside the graph in none), and for every
dependency edge `n → d`, `d`'s layer index is strictly smaller than `n`'s. -/
theorem claim_C1_topo_layers_acyclic_correct (g : Graph) (hwf : WFGraph g)
    (hclosed : ClosedGraph g) (hacyc : Acyclic g) :
    ∃ layers, topo_layers g = .ok layers ∧
      (∀ n, (layers.flatten).count n = if n ∈ keys g then 1 else 0) ∧
      (∀ (i j : Nat) (hi : i < layers.length) (hj : j < layers.length) (n d : Node),
        n ∈ layers.get ⟨i, hi⟩ → d ∈ layers.get ⟨j, hj⟩ → d ∈ depsOf g n → j < i) := by
  have hall := acyclic_closed_placeable hclosed hacyc
  rcases topo_master g hwf with ⟨lf, hnd, hmem, hlok, _, _, hok, _⟩
  refine ⟨lf, hok hall, ?_, ?_⟩
  · intro n
    by_cases hn : n ∈ keys g
    · rw [if_pos hn]
      exact List.count_eq_one_of_mem hnd ((hmem n).mpr ⟨hn, hall n hn⟩)
    · rw [if_neg hn]
      exact List.count_eq_zero_of_not_mem (fun h => hn ((hmem n).mp h).1)
  · intro i j hi hj n d hn hd hdep
    exact dep_layer_lt hnd hlok hi hj hn hd hdep

/-- Witness for C1 at the diamond graph `{d: {b,c}, b: {a}, c: {a}, a: {}}`. -/
theorem claim_C1_witness :
    WFGraph [("d", ["b", "c"]), ("b", ["a"]), ("c", ["a"]), ("a", [])]
    ∧ ClosedGraph [("d", ["b", "c"]), ("b", ["a"]), ("c", ["a"]), ("a", [])]
    ∧ Acyclic [("d", ["b", "c"]), ("b", ["a"]), ("c", ["a"]), ("a", [])]
    ∧ ∃ layers, topo_layers [("d", ["b", "c"]), ("b", ["a"]), ("c", ["a"]), ("a", [])]
        = .ok layers ∧
      (∀ n, (layers.flatten).count n
        = if n ∈ keys [("d", ["b", "c"]), ("b", ["a"]), ("c", ["a"]), ("a", [])]
          then 1 else 0) ∧
      (∀ (i j : Nat) (hi : i < layers.length) (hj : j < layers.length) (n d : Node),
        n ∈ layers.get ⟨i, hi⟩ → d ∈ layers.get ⟨j, hj⟩ →
        d ∈ depsOf [("d", ["b", "c"]), ("b", ["a"]), ("c", ["a"]), ("a", [])] n → j < i) := by
  have hacyc : Acyclic [("d", ["b", "c"]), ("b", ["a"]), ("c", ["a"]), ("a", [])] :=
    acyclic_of_rank_entries
      (fun n => if n = "a" then 0 else if n = "d" then 2 else 1) (by decide)
  exact ⟨by unfold WFGraph; decide, by unfold ClosedGraph; decide, hacyc,
    claim_C1_topo_layers_acyclic_correct _ (by unfold WFGraph; decide)
      (by unfold ClosedGraph; decide) hacyc⟩

/-- C4: `reachable_from_root` contains the root, is closed under one more
hop of the import relation, and contains only nodes transitively reachable
from the root. -/
theorem claim_C4_reachable_from_root_correct (g : Graph) (root : Node) :
    root ∈ reachable_from_root g root
    ∧ (∀ n ∈ reachable_from_root g root, ∀ d ∈ depsOf g n,
        d ∈ reachable_from_root g root)
    ∧ (∀ n ∈ reachable_from_root g root, Reach g root n) :=
  reachable_post g root

/-- C5: `filter_graph` (with exclusion on) never leaves a dangling edge, no
excluded name survives as key or edge target, and every name with the
`google/protobuf/` prefix is excluded. -/
theorem claim_C5_filter_graph_no_dangling (g : Graph) (keep : List Node) :
    (∀ p ∈ filter_graph g keep true, ∀ d ∈ p.2,
      d ∈ keys (filter_graph g keep true))
    ∧ (∀ name, is_excluded name = true →
        name ∉ keys (filter_graph g keep true)
        ∧ ∀ p ∈ filter_graph g keep true, name ∉ p.2)
    ∧ (∀ s, startsWith "google/protobuf/" s = true → is_excluded s = true) := by
  refine ⟨?_, ?_, ?_⟩
  · intro p hp d hd
    rw [filter_graph_true_mem_iff] at hp
    rcases hp with ⟨n, _, he⟩
    rw [he] at hd
    have hdk := (List.mem_filter.mp hd).2
    simp only [decide_eq_true_eq] at hdk
    rw [keys_filter_graph_true]
    exact hdk
  · intro name hex
    constructor
    · rw [keys_filter_graph_true]
      intro hmem
      have := (List.mem_filter.mp hmem).2
      rw [hex] at this
      simp at this
    · intro p hp hmem
      rw [filter_graph_true_mem_iff] at hp
      rcases hp with ⟨n, _, he⟩
      rw [he] at hmem
      have := (List.mem_filter.mp hmem).2
      simp only [decide_eq_true_eq, List.mem_filter] at this
      rw [hex] at this
      simp at this
  · intro s hs
    unfold is_excluded EXCLUDE_PREFIXES
    by_cases hm : s ∈ EXCLUDE_EXACT
    · rw [if_pos hm]
    · rw [if_neg hm]
      simp [hs]

/-- Witness for C5: the excluded name `google/protobuf/foo.proto` is gone
from a concrete filtered graph. -/
theorem claim_C5_witness :
    is_excluded "google/protobuf/foo.proto" = true
    ∧ "google/protobuf/foo.proto" ∉ keys (filter_graph
        [("a", ["b", "google/protobuf/foo.proto"]), ("b", [])]
        ["a", "b", "google/protobuf/foo.proto"] true)
    ∧ ∀ p ∈ filter_graph [("a", ["b", "google/protobuf/foo.proto"]), ("b", [])]
        ["a", "b", "google/protobuf/foo.proto"] true,
        "google/protobuf/foo.proto" ∉ p.2 := by
  refine ⟨by decide, ?_, ?_⟩
  · exact ((claim_C5_filter_graph_no_dangling _ _).2.1 _ (by decide)).1
  · exact ((claim_C5_filter_graph_no_dangling _ _).2.1 _ (by decide)).2

/-- C9: the key set of the filtered graph is exactly `keep_nodes` minus the
excluded names, and a kept name absent from the input graph becomes a
dependency-free node. -/
theorem claim_C9_filter_graph_keys (g : Graph) (keep : List Node) :
    (∀ n, n ∈ keys (filter_graph g keep true)
      ↔ n ∈ keep ∧ is_excluded n = false)
    ∧ (∀ n, n ∈ keep → is_excluded n = false → n ∉ keys g →
        (n, ([] : List Node)) ∈ filter_graph g keep true) := by
  constructor
  · intro n
    rw [keys_filter_graph_true, List.mem_filter]
    simp
  · intro n hkeep hex hng
    rw [filter_graph_true_mem_iff]
    refine ⟨n, List.mem_filter.mpr ⟨hkeep, by simp [hex]⟩, ?_⟩
    rw [depsOf_eq_nil_of_not_mem hng]
    rfl

/-- Witness for C9: a kept name absent from the graph keys appears with an
empty dependency set. -/
theorem claim_C9_witness :
    ("c" ∈ keys (filter_graph [("a", ["c"])] ["a", "c"] true)
      ↔ "c" ∈ (["a", "c"] : List Node) ∧ is_excluded "c" = false)
    ∧ ("c", ([] : List Node)) ∈ filter_graph [("a", ["c"])] ["a", "c"] true :=
  ⟨(claim_C9_filter_graph_keys [("a", ["c"])] ["a", "c"]).1 "c",
   (claim_C9_filter_graph_keys [("a", ["c"])] ["a", "c"]).2 "c"
     (by decide) (by decide) (by decide)⟩

/-- C10: the exact name `tsurugidb/udf/tsurugi_types.proto` is excluded: it
never survives filtering, neither as a key nor as an edge target. -/
theorem claim_C10_exact_exclusion (g : Graph) (keep : List Node)
    (_hkeep : "tsurugidb/udf/tsurugi_types.proto" ∈ keep) :
    is_excluded "tsurugidb/udf/tsurugi_types.proto" = true
    ∧ "tsurugidb/udf/tsurugi_types.proto" ∉ keys (filter_graph g keep true)
    ∧ ∀ p ∈ filter_graph g keep true,
        "tsurugidb/udf/tsurugi_types.proto" ∉ p.2 := by
  refine ⟨by decide, ?_, ?_⟩
  · rw [keys_filter_graph_true]
    intro hmem
    have := (List.mem_filter.mp hmem).2
    simp [is_excluded, EXCLUDE_EXACT] at this
  · intro p hp hmem
    rw [filter_graph_true_mem_iff] at hp
    rcases hp with ⟨n, _, he⟩
    rw [he] at hmem
    have := (List.mem_filter.mp hmem).2
    simp only [decide_eq_true_eq, List.mem_filter] at this
    have hb := this.2
    simp [is_excluded, EXCLUDE_EXACT] at hb

/-- Witness for C10 at a concrete graph that keeps the excluded name. -/
theorem claim_C10_witness :
    is_excluded "tsurugidb/udf/tsurugi_types.proto" = true
    ∧ "tsurugidb/udf/tsurugi_types.proto" ∉ keys (filter_graph
        [("a", ["tsurugidb/udf/tsurugi_types.proto"])]
        ["a", "tsurugidb/udf/tsurugi_types.proto"] true)
    ∧ ∀ p ∈ filter_graph [("a", ["tsurugidb/udf/tsurugi_types.proto"])]
        ["a", "tsurugidb/udf/tsurugi_types.proto"] true,
        "tsurugidb/udf/tsurugi_types.proto" ∉ p.2 :=
  claim_C10_exact_exclusion _ _ (by decide)

end Build

namespace Build

/-- C2 fails as stated: a graph can contain a cycle while the reported
remaining set also contains a node whose only dependency is a missing
(dangling) target; that node has no dependency inside the reported set, so
the induced subgraph has a node of in-degree 0. -/
theorem claim_C2_counterexample :
    HasCycle [("X", ["Y"]), ("Y", ["X"]), ("A", ["M"])]
    ∧ topo_layers [("X", ["Y"]), ("Y", ["X"]), ("A", ["M"])] = .error ["A", "X", "Y"]
    ∧ ¬ (∀ m ∈ (["A", "X", "Y"] : List Node),
        ∃ d ∈ depsOf [("X", ["Y"]), ("Y", ["X"]), ("A", ["M"])] m,
          d ∈ (["A", "X", "Y"] : List Node)) := by
  refine ⟨⟨"X", ?_⟩, rfl, by decide⟩
  have e1 : EdgeRel [("X", ["Y"]), ("Y", ["X"]), ("A", ["M"])] "X" "Y" := by unfold EdgeRel; decide
  have e2 : EdgeRel [("X", ["Y"]), ("Y", ["X"]), ("A", ["M"])] "Y" "X" := by unfold EdgeRel; decide
  exact Relation.TransGen.head e1 (Relation.TransGen.single e2)

/-- C2 amended: for every well-formed graph whose every edge target is a key,
if the graph contains a cycle then `topo_layers` fails, the reported set is
exactly the set of nodes it could not place, and every reported node has a
dependency inside the reported set; in particular the two-node cycle
`X → Y → X` reports exactly `["X", "Y"]`. -/
theorem claim_C2_cycle_error_amended (g : Graph) (hwf : WFGraph g)
    (hclosed : ClosedGraph g) (hcyc : HasCycle g) :
    (∃ r, topo_layers g = .error r ∧ r ≠ []
      ∧ (∀ n, n ∈ r ↔ n ∈ keys g ∧ ¬ Placeable g n)
      ∧ (∀ m ∈ r, ∃ d ∈ depsOf g m, d ∈ r))
    ∧ topo_layers [("X", ["Y"]), ("Y", ["X"])] = .error ["X", "Y"] := by
  refine ⟨?_, rfl⟩
  rcases cycle_unplaceable hcyc with ⟨n₀, hk₀, hp₀⟩
  rcases topo_master g hwf with ⟨lf, _, hmem, _, _, _, _, herr⟩
  have hrmem : ∀ n, (n ∈ sortNodes ((keys g).filter
      (fun n => decide (n ∉ lf.flatten)))) ↔ n ∈ keys g ∧ ¬ Placeable g n := by
    intro n
    rw [mem_sortNodes, List.mem_filter]
    simp only [decide_eq_true_eq]
    constructor
    · rintro ⟨hk, hnf⟩
      exact ⟨hk, fun hp => hnf ((hmem n).mpr ⟨hk, hp⟩)⟩
    · rintro ⟨hk, hp⟩
      exact ⟨hk, fun hf => hp ((hmem n).mp hf).2⟩
  refine ⟨_, herr ⟨n₀, hk₀, hp₀⟩, ?_, hrmem, ?_⟩
  · intro he
    have := (hrmem n₀).mpr ⟨hk₀, hp₀⟩
    rw [he] at this
    cases this
  · intro m hm
    have hmr := (hrmem m).mp hm
    rcases unplaceable_has_unplaceable_dep hclosed hmr.1 hmr.2 with ⟨d, hd, hdk, hdp⟩
    exact ⟨d, hd, (hrmem d).mpr ⟨hdk, hdp⟩⟩

/-- Witness for the amended C2 at the two-node cycle. -/
theorem claim_C2_witness :
    WFGraph [("X", ["Y"]), ("Y", ["X"])]
    ∧ ClosedGraph [("X", ["Y"]), ("Y", ["X"])]
    ∧ HasCycle [("X", ["Y"]), ("Y", ["X"])]
    ∧ ((∃ r, topo_layers [("X", ["Y"]), ("Y", ["X"])] = .error r ∧ r ≠ []
        ∧ (∀ n, n ∈ r ↔ n ∈ keys [("X", ["Y"]), ("Y", ["X"])]
            ∧ ¬ Placeable [("X", ["Y"]), ("Y", ["X"])] n)
        ∧ (∀ m ∈ r, ∃ d ∈ depsOf [("X", ["Y"]), ("Y", ["X"])] m, d ∈ r))
      ∧ topo_layers [("X", ["Y"]), ("Y", ["X"])] = .error ["X", "Y"]) := by
  have e1 : EdgeRel [("X", ["Y"]), ("Y", ["X"])] "X" "Y" := by unfold EdgeRel; decide
  have e2 : EdgeRel [("X", ["Y"]), ("Y", ["X"])] "Y" "X" := by unfold EdgeRel; decide
  have hcyc : HasCycle [("X", ["Y"]), ("Y", ["X"])] :=
    ⟨"X", Relation.TransGen.head e1 (Relation.TransGen.single e2)⟩
  exact ⟨by unfold WFGraph; decide, by unfold ClosedGraph; decide, hcyc,
    claim_C2_cycle_error_amended _ (by unfold WFGraph; decide)
      (by unfold ClosedGraph; decide) hcyc⟩

/-- C6 fails as stated: in the graph with the two isolated nodes `a` and
`b`, node `a` has no dependencies and no dependents, yet the only layer is
`["a", "b"]` — `a` does not occupy a singleton layer of its own. -/
theorem claim_C6_counterexample :
    topo_layers [("a", []), ("b", [])] = .ok [["a", "b"]]
    ∧ ∀ L ∈ ([["a", "b"]] : List (List Node)), L ≠ ["a"] :=
  ⟨rfl, by decide⟩

/-- C6 amended: the empty graph yields zero layers without error, and in
every well-formed graph accepted by `topo_layers`, a node recorded with no
dependencies (in particular one with no dependents either) is placed in
layer 0. -/
theorem claim_C6_empty_and_isolated_amended :
    topo_layers ([] : Graph) = .ok []
    ∧ ∀ (g : Graph) (layers : List (List Node)) (n : Node), WFGraph g →
        (n, ([] : List Node)) ∈ g → topo_layers g = .ok layers →
        n ∈ layers.headD [] := by
  refine ⟨rfl, ?_⟩
  intro g layers n hwf hng hok
  rcases topo_master g hwf with ⟨lf, _, _, _, _, hhead, hokF, _⟩
  have he : layers = lf := topo_ok_eq_master hwf hok hokF
  rw [he, hhead]
  have hk : n ∈ keys g := mem_keys.mpr ⟨(n, []), hng, rfl⟩
  have hdeps : depsOf g n = [] := depsOf_entry hwf.1 hng
  apply mem_Ready.mpr
  exact ⟨hk, by simp, by simp [hdeps]⟩

/-- Witness for the amended C6: the isolated node of a concrete graph lands
in layer 0. -/
theorem claim_C6_witness :
    WFGraph [("z", []), ("y", ["z"])]
    ∧ topo_layers [("z", []), ("y", ["z"])] = .ok [["z"], ["y"]]
    ∧ "z" ∈ ([["z"], ["y"]] : List (List Node)).headD [] :=
  ⟨by unfold WFGraph; decide, rfl,
    claim_C6_empty_and_isolated_amended.2 [("z", []), ("y", ["z"])] [["z"], ["y"]] "z"
      (by unfold WFGraph; decide) (by decide) rfl⟩

/-- C7: a self-edge or a dependency edge to a missing key makes
`topo_layers` fail; the offending node is reported, the reported set is
exactly the unplaceable keys, and no layering is returned. -/
theorem claim_C7_malformed_edges (g : Graph) (hwf : WFGraph g) (n : Node)
    (hk : n ∈ keys g)
    (hbad : n ∈ depsOf g n ∨ ∃ d ∈ depsOf g n, d ∉ keys g) :
    ∃ r, topo_layers g = .error r ∧ n ∈ r
      ∧ (∀ m, m ∈ r ↔ m ∈ keys g ∧ ¬ Placeable g m) := by
  have hp : ¬ Placeable g n := by
    rcases hbad with h | ⟨d, hd, hdk⟩
    · exact self_edge_unplaceable h
    · exact dangling_unplaceable hd hdk
  rcases topo_master g hwf with ⟨lf, _, hmem, _, _, _, _, herr⟩
  have hrmem : ∀ m, (m ∈ sortNodes ((keys g).filter
      (fun x => decide (x ∉ lf.flatten)))) ↔ m ∈ keys g ∧ ¬ Placeable g m := by
    intro m
    rw [mem_sortNodes, List.mem_filter]
    simp only [decide_eq_true_eq]
    constructor
    · rintro ⟨hkm, hnf⟩
      exact ⟨hkm, fun hpm => hnf ((hmem m).mpr ⟨hkm, hpm⟩)⟩
    · rintro ⟨hkm, hpm⟩
      exact ⟨hkm, fun hf => hpm ((hmem m).mp hf).2⟩
  exact ⟨_, herr ⟨n, hk, hp⟩, (hrmem n).mpr ⟨hk, hp⟩, hrmem⟩

/-- Witness for C7: a self-importing node and a node depending on a missing
key both make `topo_layers` fail with the offending node reported. -/
theorem claim_C7_witness :
    WFGraph [("s", ["s"]), ("w", ["missing"])]
    ∧ "s" ∈ keys [("s", ["s"]), ("w", ["missing"])]
    ∧ ("s" ∈ depsOf [("s", ["s"]), ("w", ["missing"])] "s"
        ∨ ∃ d ∈ depsOf [("s", ["s"]), ("w", ["missing"])] "s",
            d ∉ keys [("s", ["s"]), ("w", ["missing"])])
    ∧ ∃ r, topo_layers [("s", ["s"]), ("w", ["missing"])] = .error r ∧ "s" ∈ r
      ∧ (∀ m, m ∈ r ↔ m ∈ keys [("s", ["s"]), ("w", ["missing"])]
          ∧ ¬ Placeable [("s", ["s"]), ("w", ["missing"])] m) :=
  ⟨by unfold WFGraph; decide, by decide, Or.inl (by decide),
    claim_C7_malformed_edges _ (by unfold WFGraph; decide) "s" (by decide)
      (Or.inl (by decide))⟩

end Build

namespace Build

/-- C3: the layering depends only on the key/value content of the graph
(identical key sets and identical dependency sets give identical results,
independent of entry or element order), every layer of an accepted result
is sorted lexicographically, and layer 0 is exactly the sorted list of
nodes with zero dependencies. -/
theorem claim_C3_deterministic_sorted (g₁ g₂ : Graph)
    (h₁ : WFGraph g₁) (h₂ : WFGraph g₂)
    (hks : ∀ n, n ∈ keys g₁ ↔ n ∈ keys g₂)
    (hds : ∀ n d, d ∈ depsOf g₁ n ↔ d ∈ depsOf g₂ n) :
    topo_layers g₁ = topo_layers g₂
    ∧ (∀ layers, topo_layers g₁ = .ok layers →
        (∀ L ∈ layers, L.Sorted (fun a b : Node => a ≤ b))
        ∧ layers.headD []
          = sortNodes ((keys g₁).filter (fun n => decide (depsOf g₁ n = [])))) := by
  refine ⟨topo_layers_congr_of_equiv h₁ h₂ hks hds, ?_⟩
  intro layers hok
  rcases topo_master g₁ h₁ with ⟨lf, _, _, _, hsort, hhead, hokF, _⟩
  have he : layers = lf := topo_ok_eq_master h₁ hok hokF
  constructor
  · rw [he]
    exact hsort
  · rw [he, hhead, Ready_nil]

/-- Witness for C3: two permutations of the same graph content produce the
same (sorted) layers. -/
theorem claim_C3_witness :
    topo_layers [("a", ["b", "c"]), ("b", []), ("c", [])]
      = topo_layers [("c", []), ("a", ["c", "b"]), ("b", [])]
    ∧ topo_layers [("a", ["b", "c"]), ("b", []), ("c", [])] = .ok [["b", "c"], ["a"]]
    ∧ (∀ L ∈ ([["b", "c"], ["a"]] : List (List Node)),
        L.Sorted (fun a b : Node => a ≤ b))
    ∧ ([["b", "c"], ["a"]] : List (List Node)).headD []
      = sortNodes ((keys [("a", ["b", "c"]), ("b", []), ("c", [])]).filter
          (fun n => decide (depsOf [("a", ["b", "c"]), ("b", []), ("c", [])] n = []))) := by
  have hks : ∀ n : Node, n ∈ keys [("a", ["b", "c"]), ("b", []), ("c", [])]
      ↔ n ∈ keys [("c", []), ("a", ["c", "b"]), ("b", [])] := by
    intro n
    unfold keys
    simp only [List.map_cons, List.map_nil, List.mem_cons, List.not_mem_nil, or_false]
    tauto
  have hds : ∀ n d : Node, d ∈ depsOf [("a", ["b", "c"]), ("b", []), ("c", [])] n
      ↔ d ∈ depsOf [("c", []), ("a", ["c", "b"]), ("b", [])] n := by
    intro n d
    by_cases ha : n = "a"
    · subst ha
      show d ∈ depsOf [("a", ["b", "c"]), ("b", []), ("c", [])] "a"
        ↔ d ∈ depsOf [("c", []), ("a", ["c", "b"]), ("b", [])] "a"
      rw [show depsOf [("a", ["b", "c"]), ("b", []), ("c", [])] "a" = ["b", "c"] from rfl,
        show depsOf [("c", []), ("a", ["c", "b"]), ("b", [])] "a" = ["c", "b"] from rfl]
      simp only [List.mem_cons, List.not_mem_nil, or_false]
      tauto
    · by_cases hb : n = "b"
      · subst hb
        rw [show depsOf [("a", ["b", "c"]), ("b", []), ("c", [])] "b" = [] from rfl,
          show depsOf [("c", []), ("a", ["c", "b"]), ("b", [])] "b" = [] from rfl]
      · by_cases hc : n = "c"
        · subst hc
          rw [show depsOf [("a", ["b", "c"]), ("b", []), ("c", [])] "c" = [] from rfl,
            show depsOf [("c", []), ("a", ["c", "b"]), ("b", [])] "c" = [] from rfl]
        · have h1 : n ∉ keys [("a", ["b", "c"]), ("b", []), ("c", [])] := by
            unfold keys
            simp only [List.map_cons, List.map_nil, List.mem_cons, List.not_mem_nil, or_false]
            tauto
          have h2 : n ∉ keys [("c", []), ("a", ["c", "b"]), ("b", [])] := by
            unfold keys
            simp only [List.map_cons, List.map_nil, List.mem_cons, List.not_mem_nil, or_false]
            tauto
          rw [depsOf_eq_nil_of_not_mem h1, depsOf_eq_nil_of_not_mem h2]
  have hmain := claim_C3_deterministic_sorted
    [("a", ["b", "c"]), ("b", []), ("c", [])] [("c", []), ("a", ["c", "b"]), ("b", [])]
    (by unfold WFGraph; decide) (by unfold WFGraph; decide) hks hds
  have hok : topo_layers [("a", ["b", "c"]), ("b", []), ("c", [])]
      = .ok [["b", "c"], ["a"]] := rfl
  exact ⟨hmain.1, hok, (hmain.2 _ hok).1, (hmain.2 _ hok).2⟩

end Build

namespace Build

/-- C8: the candidate list is, in order, the command-line value, the
`GRPC_CPP_PLUGIN`-or-`PROTOC_GEN_GRPC` environment value, the `PATH` lookup
result, then the two fixed fallback paths; the function returns the first
candidate that exists as an executable regular file; when no candidate
qualifies it fails with an error listing every candidate tried. -/
theorem claim_C8_find_grpc_cpp_plugin (cli : Option String) (env : SysEnv) :
    candidatesOf cli env
        = optCand cli ++ optCand (envValue env) ++ optCand env.whichResult
          ++ ["/usr/bin/grpc_cpp_plugin", "/usr/local/bin/grpc_cpp_plugin"]
    ∧ (∀ p, find_grpc_cpp_plugin cli env = .ok p ↔
        (candidatesOf cli env).find? (isExecFile env) = some p)
    ∧ (∀ p, (candidatesOf cli env).find? (isExecFile env) = some p ↔
        isExecFile env p = true ∧ ∃ i, ∃ h : i < (candidatesOf cli env).length,
          (candidatesOf cli env)[i] = p
          ∧ ∀ (j : Nat), j < i →
              isExecFile env ((candidatesOf cli env).getD j "") = false)
    ∧ ((∀ c ∈ candidatesOf cli env, isExecFile env c = false)
        ↔ find_grpc_cpp_plugin cli env = .error (candidatesOf cli env)) := by
  have hred : find_grpc_cpp_plugin cli env
      = (match (candidatesOf cli env).find? (isExecFile env) with
        | some p => Except.ok p
        | none => Except.error (candidatesOf cli env)) := by
    show (match findLoop env (candidatesOf cli env) [] with
      | some p => Except.ok p
      | none => Except.error (candidatesOf cli env))
      = (match (candidatesOf cli env).find? (isExecFile env) with
        | some p => Except.ok p
        | none => Except.error (candidatesOf cli env))
    rw [findLoop_eq_find? env (candidatesOf cli env) [] (by intro s hs; cases hs)]
  refine ⟨rfl, ?_, ?_, ?_⟩
  · intro p
    rw [hred]
    cases hfind : (candidatesOf cli env).find? (isExecFile env) with
    | some c => simp
    | none => simp
  · intro p
    rw [List.find?_eq_some_iff_getElem]
    constructor
    · rintro ⟨hp, i, h, hip, hall⟩
      refine ⟨hp, i, h, hip, ?_⟩
      intro j hj
      have hjl : j < (candidatesOf cli env).length := by omega
      have hb := hall j hj
      rw [Bool.not_eq_true'] at hb
      rw [List.getD_eq_getElem _ _ hjl]
      exact hb
    · rintro ⟨hp, i, h, hip, hall⟩
      refine ⟨hp, i, h, hip, ?_⟩
      intro j hj
      have hjl : j < (candidatesOf cli env).length := by omega
      have hb := hall j hj
      rw [List.getD_eq_getElem _ _ hjl] at hb
      rw [Bool.not_eq_true']
      exact hb
  · constructor
    · intro hall
      rw [hred]
      have hnone : (candidatesOf cli env).find? (isExecFile env) = none := by
        rw [List.find?_eq_none]
        intro x hx
        rw [hall x hx]
        simp
      rw [hnone]
    · intro herr c hc
      rw [hred] at herr
      cases hfind : (candidatesOf cli env).find? (isExecFile env) with
      | some q =>
        rw [hfind] at herr
        cases herr
      | none =>
        have hne := List.find?_eq_none.mp hfind c hc
        cases hv : isExecFile env c
        · rfl
        · exact absurd hv hne

/-- Witness for C8: with an executable command-line candidate the function
returns it; with nothing executable it reports every location tried. -/
theorem claim_C8_witness :
    find_grpc_cpp_plugin (some "/opt/plug")
        ⟨none, none, none, fun s => decide (s = "/opt/plug"),
          fun s => decide (s = "/opt/plug"), fun s => decide (s = "/opt/plug")⟩
      = .ok "/opt/plug"
    ∧ find_grpc_cpp_plugin none
        ⟨some "/env/plug", none, none, fun _ => false, fun _ => false, fun _ => false⟩
      = .error ["/env/plug", "/usr/bin/grpc_cpp_plugin", "/usr/local/bin/grpc_cpp_plugin"] := by
  constructor
  · exact ((claim_C8_find_grpc_cpp_plugin (some "/opt/plug")
      ⟨none, none, none, fun s => decide (s = "/opt/plug"),
        fun s => decide (s = "/opt/plug"), fun s => decide (s = "/opt/plug")⟩).2.1
      "/opt/plug").mpr (by decide)
  · exact ((claim_C8_find_grpc_cpp_plugin none
      ⟨some "/env/plug", none, none, fun _ => false, fun _ => false, fun _ => false⟩).2.2.2).mp
      (by decide)

end Build

-- sanity examples (will be kept as plain examples)
example : Build.topo_layers [] = .ok [] := rfl

example : Build.sortNodes ["b", "a", "c"] = ["a", "b", "c"] := by decide

example :
    Build.topo_layers [("d", ["b", "c"]), ("b", ["a"]), ("c", ["a"]), ("a", [])]
      = .ok [["a"], ["b", "c"], ["d"]] := rfl

example :
    Build.topo_layers [("X", ["Y"]), ("Y", ["X"])] = .error ["X", "Y"] := rfl

example :
    Build.reachable_from_root [("a", ["b"]), ("b", ["c"]), ("c", []), ("z", [])] "a"
      = ["a", "b", "c"] := by decide

example : Build.is_excluded "google/protobuf/foo.proto" = true := by decide
example : Build.is_excluded "tsurugidb/udf/tsurugi_types.proto" = true := by decide
example : Build.is_excluded "data/company.proto" = false := by decide

example :
    Build.filter_graph [("a", ["b", "google/protobuf/x.proto"]), ("b", [])]
      ["a", "b", "google/protobuf/x.proto"] true
      = [("a", ["b"]), ("b", [])] := by decide
